import Mathlib

/-!
Shallow embedding of the netlist-to-graph encoding pipeline of
`spice-completion` (src/parse_netlist.py and
src/spice_completion/datasets/prototype_link_pred.py), together with proofs
of the specification claims about it.

Modelling conventions:
* Python lists become Lean `List`s; the insertion-ordered dict
  `subcircuit_types` becomes an association list with in-place update.
* numpy tensors become total functions `Nat → Nat` / `Nat → Nat → Nat` /
  `Nat → Nat → Nat → Nat` over indices; the allocated dimensions are carried
  separately where the code reads them (`adj.shape`, `len(component_types)`).
  All tensor values written by this code are 0 or 1, so entries are `Nat`.
* A Python exception escaping a function is modelled by `Option`/`Except`
  (`none` = the call raises), e.g. `component_types.index` raising
  `ValueError`, or numpy fancy indexing raising `IndexError`.
* Side-file text lines are `List Char`; `splitOnSpace` models Python's
  `str.split(' ')` (split at every single space character, keeping empty
  fields) and `stripChars` models `str.strip()`.
-/

namespace SpiceCompletion

/-- The PySpice element classes this code touches: the sixteen
`BasicElement` classes registered in `component_types`
(src/parse_netlist.py:8-27), the `Node` class, and (as a representative of
the many PySpice classes the list omits) `CurrentControlledCurrentSource`,
the standard SPICE `F` device, which is a real `BasicElement` class with no
entry in `component_types`. -/
inductive PyType
  | Resistor
  | BehavioralCapacitor
  | VoltageSource
  | Mosfet
  | SubCircuitElement
  | NodeCls
  | Diode
  | BehavioralInductor
  | CurrentSource
  | VoltageControlledCurrentSource
  | VoltageControlledVoltageSource
  | Capacitor
  | CoupledInductor
  | JunctionFieldEffectTransistor
  | BipolarJunctionTransistor
  | XSpiceElement
  | BehavioralSource
  | CurrentControlledCurrentSource
  deriving DecidableEq

/-- An entry of the `component_types` list: either a Python class object or a
string (the initial `'unknown'` entry and the labels appended from the side
file are strings). -/
inductive TypeTag
  | cls (t : PyType)
  | label (s : List Char)
  deriving DecidableEq

/-- The fixed prefix of `component_types` (src/parse_netlist.py:8-27), in
source order: the string `'unknown'` followed by seventeen class objects. -/
def base_component_types : List TypeTag :=
  [.label "unknown".toList,
   .cls .Resistor,
   .cls .BehavioralCapacitor,
   .cls .VoltageSource,
   .cls .Mosfet,
   .cls .SubCircuitElement,
   .cls .NodeCls,
   .cls .Diode,
   .cls .BehavioralInductor,
   .cls .CurrentSource,
   .cls .VoltageControlledCurrentSource,
   .cls .VoltageControlledVoltageSource,
   .cls .Capacitor,
   .cls .CoupledInductor,
   .cls .JunctionFieldEffectTransistor,
   .cls .BipolarJunctionTransistor,
   .cls .XSpiceElement,
   .cls .BehavioralSource]

/-- Python `line.split(' ')`: split at each single space character, keeping
empty fields; `''.split(' ') == ['']`. -/
def splitOnSpace : List Char → List (List Char)
  | [] => [[]]
  | c :: rest =>
    let r := splitOnSpace rest
    if c = ' ' then [] :: r
    else
      match r with
      | t :: ts => (c :: t) :: ts
      | [] => [[c]]

/-- Python `str.strip()`: drop leading and trailing whitespace. -/
def stripChars (cs : List Char) : List Char :=
  ((cs.dropWhile Char.isWhitespace).reverse.dropWhile Char.isWhitespace).reverse

/-- Split at every whitespace character, keeping empty fields. -/
def splitOnWhitespaceChar : List Char → List (List Char)
  | [] => [[]]
  | c :: rest =>
    let r := splitOnWhitespaceChar rest
    if c.isWhitespace then [] :: r
    else
      match r with
      | t :: ts => (c :: t) :: ts
      | [] => [[c]]

/-- Python `str.split()` with no argument: tokens separated by runs of
whitespace, with no empty tokens.  Used only to state what a
"whitespace-separated token" is; the source never calls this. -/
def wsTokens (cs : List Char) : List (List Char) :=
  (splitOnWhitespaceChar cs).filter (fun t => t ≠ [])

/-- Insertion-ordered dict update: `d[k] = v`. -/
def dictInsert (d : List (List Char × List Char)) (k v : List Char) :
    List (List Char × List Char) :=
  if d.any (fun p => p.1 = k) then d.map (fun p => if p.1 = k then (k, v) else p)
  else d ++ [(k, v)]

/-- Dict lookup `d.get(k)` returning `none` when the key is absent. -/
def dictGet (d : List (List Char × List Char)) (k : List Char) : Option (List Char) :=
  (d.find? (fun p => p.1 = k)).map (·.2)

/-- The module-level state built at import time: the `subcircuit_types` dict
and the (extended) `component_types` list. -/
structure Registry where
  subcircuit_types : List (List Char × List Char)
  component_types : List TypeTag
  deriving DecidableEq

/-- One iteration of the side-file loop (src/parse_netlist.py:30-36): a line
whose `split(' ')` has exactly two fields is a `(subcircuit, label)` pair;
the label is stripped, stored in the dict, and appended to
`component_types` when not already present.  Any other line is filtered out
by the generator's `len(line.split(' ')) == 2` test. -/
def sideFileStep (r : Registry) (line : List Char) : Registry :=
  match splitOnSpace line with
  | [subcircuit, label0] =>
    let label := stripChars label0
    { subcircuit_types := dictInsert r.subcircuit_types subcircuit label
      component_types :=
        if TypeTag.label label ∈ r.component_types then r.component_types
        else r.component_types ++ [TypeTag.label label] }
  | _ => r

/-- Reading `subcircuit-types.txt` at import time (src/parse_netlist.py:29-36),
starting from the fixed `component_types` prefix and an empty dict. -/
def loadRegistry (lines : List (List Char)) : Registry :=
  lines.foldl sideFileStep
    { subcircuit_types := [], component_types := base_component_types }

/-- A parsed circuit element as exposed by PySpice: an identity (distinct
objects have distinct `eid`), a Python class, a `subcircuit_name` (read only
on `SubCircuitElement`s) and the node of each pin, in pin order. -/
structure Element where
  eid : Nat
  cls : PyType
  subcircuit_name : List Char
  pins : List Nat
  deriving DecidableEq

/-- A vertex of the canonical graph: a circuit element or an electrical
node.  Python compares these by object identity; distinct objects are
modelled by structurally distinct values. -/
inductive Entity
  | comp (e : Element)
  | node (n : Nat)
  deriving DecidableEq

/-- `type(element)` as the code sees it: elements have their class, node
objects have class `Node`. -/
def Entity.pyType : Entity → PyType
  | .comp e => e.cls
  | .node _ => .NodeCls

/-- `element.subcircuit_name`; only ever read when the class is
`SubCircuitElement`, which a node never is. -/
def Entity.subName : Entity → List Char
  | .comp e => e.subcircuit_name
  | .node _ => []

/-- Python `list.index` on `component_types`, as a total search; `none`
models the `ValueError` it raises when the value is absent. -/
def idxOfTag : List TypeTag → TypeTag → Option Nat
  | [], _ => none
  | y :: ys, x => if y = x then some 0 else (idxOfTag ys x).map (· + 1)

/-- `get_component_type_index` (src/parse_netlist.py:38-43).  For a
subcircuit element the dict lookup falls back to the class itself; the final
`component_types.index` call raises `ValueError` (here `none`) when the
type was never registered. -/
def get_component_type_index (r : Registry) (e : Entity) : Option Nat :=
  let element_type : TypeTag :=
    if e.pyType = .SubCircuitElement then
      match dictGet r.subcircuit_types e.subName with
      | some label => .label label
      | none => .cls e.pyType
    else .cls e.pyType
  idxOfTag r.component_types element_type

/-- Python `list.index` on the entity list (first occurrence); only ever
used on members, where it returns the unique first index. -/
def idxOf : List Entity → Entity → Nat
  | [], _ => 0
  | y :: ys, x => if y = x then 0 else idxOf ys x + 1

/-- `if x not in component_list: component_list.append(x)`. -/
def addEntity (cl : List Entity) (x : Entity) : List Entity :=
  if x ∈ cl then cl else cl ++ [x]

/-- The dict-of-lists `adj` under construction: keys are entity indices,
values the lists of neighbor indices appended so far. -/
abbrev AdjList := List (Nat × List Nat)

def hasKey (a : AdjList) (k : Nat) : Bool := a.any (fun p => p.1 = k)

/-- `adj[k].extend(js)` (keys are unique, so updating every matching entry
coincides with updating the one dict slot). -/
def appendAt (a : AdjList) (k : Nat) (js : List Nat) : AdjList :=
  a.map (fun p => if p.1 = k then (p.1, p.2 ++ js) else p)

/-- `adj.get(k, [])`: the neighbor list recorded under key `k`. -/
def adjLookup (a : AdjList) (k : Nat) : List Nat :=
  ((a.find? (fun p => p.1 = k)).map (·.2)).getD []

/-- Accumulator of the element loop in `netlist_as_graph`. -/
structure GraphAcc where
  component_list : List Entity
  adjL : AdjList

/-- One iteration of the element loop (src/parse_netlist.py:127-146):
append the element and its pins' nodes to `component_list` if new, then
record the element↔node adjacency in both directions. -/
def graphStep (acc : GraphAcc) (e : Element) : GraphAcc :=
  let cl1 := addEntity acc.component_list (.comp e)
  let nodes := e.pins
  let cl2 := nodes.foldl (fun cl n => addEntity cl (.node n)) cl1
  let element_id := idxOf cl2 (.comp e)
  let adj1 := if hasKey acc.adjL element_id then acc.adjL
    else acc.adjL ++ [(element_id, [])]
  let node_ids := nodes.map (fun n => idxOf cl2 (.node n))
  let adj2 := appendAt adj1 element_id node_ids
  let adj3 := node_ids.foldl (fun a nid =>
    appendAt (if hasKey a nid then a else a ++ [(nid, [])]) nid [element_id]) adj2
  { component_list := cl2, adjL := adj3 }

/-- A canonical graph as returned by `netlist_as_graph`: the entity list,
the dimension of the adjacency matrix, and the matrix itself as a total
function (zero outside the allocated square). -/
structure CGraph where
  entities : List Entity
  n : Nat
  adj : Nat → Nat → Nat

/-- `netlist_as_graph` (src/parse_netlist.py:121-149).  The final
`nx.adjacency_matrix(nx.from_dict_of_lists(adj)).toarray()` builds the
simple undirected graph whose vertices are the dict keys — inserted here in
increasing index order 0,1,2,…, which is the row order `networkx` uses —
with an edge {i,j} whenever `j` appears in the list stored under key `i`;
its 0/1 adjacency matrix is the membership test below, and its dimension is
the number of keys. -/
def netlist_as_graph (elements : List Element) : CGraph :=
  let acc := elements.foldl graphStep { component_list := [], adjL := [] }
  { entities := acc.component_list
    n := acc.adjL.length
    adj := fun i j =>
      if j ∈ adjLookup acc.adjL i ∨ i ∈ adjLookup acc.adjL j then 1 else 0 }

/-- 3-axis tensor (sample, row, column) as a total function. -/
abbrev T3 := Nat → Nat → Nat → Nat

/-- 2-axis tensor (matrix) as a total function. -/
abbrev T2 := Nat → Nat → Nat

def zero3 : T3 := fun _ _ _ => 0

def zero2 : T2 := fun _ _ => 0

/-- Single-cell write `M[a, b, c] = v`. -/
def upd3 (M : T3) (a b c v : Nat) : T3 :=
  fun s r k => if s = a ∧ r = b ∧ k = c then v else M s r k

/-- Single-cell write `M[a, b] = v`. -/
def upd2 (M : T2) (a b v : Nat) : T2 :=
  fun r c => if r = a ∧ c = b then v else M r c

/-- `[f(x) for x in l]` where each call may raise: `none` when any does. -/
def mapOption (f : α → Option β) : List α → Option (List β)
  | [] => some []
  | x :: xs =>
    match f x, mapOption f xs with
    | some y, some ys => some (y :: ys)
    | _, _ => none

/-- numpy fancy assignment `X[:, np.arange(n), element_types] = 1`
(n = `element_types.size`): in every sample, row `r < n` gets a 1 at column
`element_types[r]`. -/
def setRowOneHots (X : T3) (types : List Nat) : T3 :=
  fun s r c => if r < types.length ∧ c = types.getD r 0 then 1 else X s r c

/-- numpy fancy assignment `y[np.arange(n), element_types] = 1` on a matrix. -/
def setRowOneHots2 (y : T2) (types : List Nat) : T2 :=
  fun r c => if r < types.length ∧ c = types.getD r 0 then 1 else y r c

/-- The body of the masked-encoder loop (src/parse_netlist.py:78-82) for one
`idx`: clear the true-type bit of row `idx` in sample `idx`, set its
"unknown" bit (column 0), and copy the adjacency block
`A[idx, :adj.shape[0], :adj.shape[1]] = adj`. -/
def maskedStep (adjn : Nat) (adjf : T2) (types : List Nat) (AX : T3 × T3)
    (idx : Nat) : T3 × T3 :=
  let actual_type := types.getD idx 0
  let X := upd3 AX.2 idx idx actual_type 0
  let X := upd3 X idx idx 0 1
  let A : T3 := fun s r c =>
    if s = idx ∧ r < adjn ∧ c < adjn then adjf r c else AX.1 s r c
  (A, X)

/-- `encode_masked_netlist` (src/parse_netlist.py:72-84), writing into the
caller-allocated tensors `A`, `X`, `y` (zero slices in every call site);
`none` models the `ValueError` escaping from `get_component_type_index`. -/
def encode_masked_netlist (r : Registry) (g : CGraph) (A X y : T3) :
    Option (T3 × T3 × T3) :=
  (mapOption (get_component_type_index r) g.entities).map fun element_types =>
    let X := setRowOneHots X element_types
    let y := setRowOneHots y element_types
    let AX := (List.range element_types.length).foldl
      (maskedStep g.n g.adj element_types) (A, X)
    (AX.1, AX.2, y)

/-- The body of the omission-encoder loop (src/parse_netlist.py:110-117) for
one `idx`: clear the true-type bit of row `idx` in sample `idx` (nothing is
set in its place), copy the adjacency block, then zero column `idx`
(`A[idx,:,idx] = 0`) and row `idx` (`A[idx,idx,:] = 0`) of sample `idx`. -/
def omittedStep (adjn : Nat) (adjf : T2) (types : List Nat) (AX : T3 × T3)
    (idx : Nat) : T3 × T3 :=
  let actual_type := types.getD idx 0
  let X := upd3 AX.2 idx idx actual_type 0
  let A : T3 := fun s r c =>
    if s = idx ∧ r < adjn ∧ c < adjn then adjf r c else AX.1 s r c
  let A : T3 := fun s r c => if s = idx ∧ c = idx then 0 else A s r c
  let A : T3 := fun s r c => if s = idx ∧ r = idx then 0 else A s r c
  (A, X)

/-- `encode_omitted_netlist` (src/parse_netlist.py:104-119); the label `y`
is a matrix (one one-hot vector per sample). -/
def encode_omitted_netlist (r : Registry) (g : CGraph) (A X : T3) (y : T2) :
    Option (T3 × T3 × T2) :=
  (mapOption (get_component_type_index r) g.entities).map fun element_types =>
    let X := setRowOneHots X element_types
    let y := setRowOneHots2 y element_types
    let AX := (List.range element_types.length).foldl
      (omittedStep g.n g.adj element_types) (A, X)
    (AX.1, AX.2, y)

/-- View `glob[start:]` along the sample axis. -/
def slice3 (glob : T3) (start : Nat) : T3 := fun s r c => glob (start + s) r c

/-- View `glob[start:]` along the row axis of a matrix. -/
def slice2 (glob : T2) (start : Nat) : T2 := fun s c => glob (start + s) c

/-- Writing an `n`-sample slice back into the global tensor: the numpy view
`glob[start:start+n]` aliases exactly those samples. -/
def splice3 (glob : T3) (start n : Nat) (sl : T3) : T3 :=
  fun s r c => if start ≤ s ∧ s < start + n then sl (s - start) r c else glob s r c

/-- Writing an `n`-row slice back into the global matrix. -/
def splice2 (glob : T2) (start n : Nat) (sl : T2) : T2 :=
  fun s c => if start ≤ s ∧ s < start + n then sl (s - start) c else glob s c

/-- Python `max(counts)`; `none` models the `ValueError` on an empty list. -/
def pyMax : List Nat → Option Nat
  | [] => none
  | c :: cs => some (cs.foldl max c)

/-- Python `sum(counts)`. -/
def pySum (l : List Nat) : Nat := l.foldl (· + ·) 0

/-- Result of a batched load: the allocated dimensions and the tensors. -/
structure MaskedBatch where
  data_count : Nat
  max_components : Nat
  A : T3
  X : T3
  y : T3

/-- The per-file loop of `load_masked_netlists` (src/parse_netlist.py:63-68):
each file's encoder writes into the sample slice `[start, start+n)`. -/
def maskedLoadLoop (r : Registry) : List CGraph → T3 → T3 → T3 → Nat →
    Option (T3 × T3 × T3 × Nat)
  | [], A, X, y, start => some (A, X, y, start)
  | g :: gs, A, X, y, start =>
    let n := g.entities.length
    match encode_masked_netlist r g (slice3 A start) (slice3 X start) (slice3 y start) with
    | some (A1, X1, y1) =>
      maskedLoadLoop r gs (splice3 A start n A1) (splice3 X start n X1)
        (splice3 y start n y1) (start + n)
    | none => none

/-- `load_masked_netlists` (src/parse_netlist.py:54-70); `none` models the
`ValueError` of `max(counts)` on an empty corpus or an escaping
`get_component_type_index` failure. -/
def load_masked_netlists (r : Registry) (files : List (List Element)) :
    Option MaskedBatch :=
  let graphs := files.map netlist_as_graph
  let counts := graphs.map (fun g => g.entities.length)
  match pyMax counts with
  | none => none
  | some max_components =>
    match maskedLoadLoop r graphs zero3 zero3 zero3 0 with
    | none => none
    | some res => some ⟨pySum counts, max_components, res.1, res.2.1, res.2.2.1⟩

/-- Result of `load_omitted_netlists`: `y` is a matrix (one label row per
sample). -/
structure OmittedBatch where
  data_count : Nat
  max_components : Nat
  A : T3
  X : T3
  y : T2

/-- The per-file loop of `load_omitted_netlists`
(src/parse_netlist.py:95-100). -/
def omittedLoadLoop (r : Registry) : List CGraph → T3 → T3 → T2 → Nat →
    Option (T3 × T3 × T2 × Nat)
  | [], A, X, y, start => some (A, X, y, start)
  | g :: gs, A, X, y, start =>
    let n := g.entities.length
    match encode_omitted_netlist r g (slice3 A start) (slice3 X start) (slice2 y start) with
    | some (A1, X1, y1) =>
      omittedLoadLoop r gs (splice3 A start n A1) (splice3 X start n X1)
        (splice2 y start n y1) (start + n)
    | none => none

/-- `load_omitted_netlists` (src/parse_netlist.py:86-102); `none` models the
`ValueError` of `max(counts)` on an empty corpus or an escaping
`get_component_type_index` failure. -/
def load_omitted_netlists (r : Registry) (files : List (List Element)) :
    Option OmittedBatch :=
  let graphs := files.map netlist_as_graph
  let counts := graphs.map (fun g => g.entities.length)
  match pyMax counts with
  | none => none
  | some max_components =>
    match omittedLoadLoop r graphs zero3 zero3 zero2 0 with
    | none => none
    | some res => some ⟨pySum counts, max_components, res.1, res.2.1, res.2.2.1⟩

/-- `action_index = len(all_component_types)`
(src/spice_completion/datasets/prototype_link_pred.py:17); the helpers
module re-exports the process-wide enumeration of src/parse_netlist.py. -/
def action_index (r : Registry) : Nat := r.component_types.length

/-- `embedding_size = len(all_component_types) + 1`
(src/spice_completion/datasets/prototype_link_pred.py:16). -/
def embedding_size (r : Registry) : Nat := r.component_types.length + 1

/-- The graph returned by `PrototypeLinkDataset.load_graph`: the number of
entity slots and the feature/adjacency matrices. -/
structure LGraph where
  total_components : Nat
  x : T2
  a : T2

/-- Pairwise numpy fancy assignment `x[indices, cols] = 1`. -/
def setOnes (x : T2) (pairs : List (Nat × Nat)) : T2 :=
  pairs.foldl (fun x p => upd2 x p.1 p.2 1) x

/-- `PrototypeLinkDataset.load_graph`
(src/spice_completion/datasets/prototype_link_pred.py:103-148).  `none`
models an escaping exception: a `ValueError` from
`h.get_component_type_index`, or the `IndexError` of
`element_types[omitted_idx]` / `action_indices[0]` when `omitted_idx` is
out of range or the enumeration is empty.  `adjn`/`adjf` are `adj.shape[0]`
and the adjacency contents as handed over by `h.netlist_as_graph`. -/
def load_graph (r : Registry) (components : List Entity) (adjn : Nat)
    (adjf : T2) (omitted_idx : Option Nat) : Option LGraph :=
  let component_count := components.length
  let action_component_count := r.component_types.length
  let total_components :=
    match omitted_idx with
    | some _ => component_count + action_component_count - 1
    | none => component_count + action_component_count
  match mapOption (get_component_type_index r) components with
  | none => none
  | some component_types =>
    let x : T2 := setRowOneHots2 zero2 component_types
    let action_offset := component_types.length
    let num_actions := r.component_types.length
    match (match omitted_idx with
      | some oi =>
        if num_actions = 0 then none
        else
          match component_types.get? oi with
          | none => none
          | some omitted_type =>
            some (oi :: List.range' action_offset (num_actions - 1),
              omitted_type ::
                ((List.range num_actions).filter (fun idx => idx ≠ omitted_type)))
      | none =>
        some (List.range' action_offset num_actions, List.range num_actions)) with
    | none => none
    | some (action_indices, action_types) =>
      let x := setOnes x (action_indices.map (fun i => (i, action_index r)))
      let x := setOnes x (action_indices.zip action_types)
      some ⟨total_components, x,
        fun i j => if i < adjn ∧ j < adjn then adjf i j else 0⟩

/-- The failures `is_valid_netlist` can produce: the wrapped parser raising,
or the `NameError` on the unbound global `sys`. -/
inductive PyFailure
  | nameErrorSys
  deriving DecidableEq

/-- Python truthiness of the optional `name` argument (default `None`). -/
def truthyName : Option (List Char) → Bool
  | none => false
  | some s => !s.isEmpty

/-- `is_valid_netlist` (src/parse_netlist.py:151-159), over an abstract
SPICE parser `parse` (the external `SpiceParser(...).build_circuit()` step:
`.error` when it raises).  On a parse failure with a truthy `name`, the
handler runs `print(f'...', file=sys.stderr)`, but the module imports `sys`
only under `if __name__ == '__main__':`, so in library use the global `sys`
is unbound and the handler itself raises `NameError`, modelled as
`.error .nameErrorSys`. -/
def is_valid_netlist (parse : List Char → Except Unit Unit) (textfile : List Char)
    (name : Option (List Char)) : Except PyFailure Bool :=
  match parse textfile with
  | .ok _ => .ok true
  | .error _ => if truthyName name then .error .nameErrorSys else .ok false

/-- Row sum of the first `w` columns (the allocated one-hot width). -/
def rowSum (v : Nat → Nat) (w : Nat) : Nat := ∑ c ∈ Finset.range w, v c

/-! ### Basic lemmas about the embedded primitives -/

theorem mapOption_length {α β} {f : α → Option β} {l : List α} {ys : List β}
    (h : mapOption f l = some ys) : ys.length = l.length := by
  induction l generalizing ys with
  | nil =>
    simp only [mapOption, Option.some.injEq] at h
    subst h; rfl
  | cons x xs ih =>
    simp only [mapOption] at h
    cases hx : f x with
    | none => rw [hx] at h; exact absurd h (by simp)
    | some y =>
      cases hxs : mapOption f xs with
      | none => rw [hx, hxs] at h; exact absurd h (by simp)
      | some zs =>
        rw [hx, hxs] at h
        simp only [Option.some.injEq] at h
        subst h
        simp [ih hxs]

theorem mapOption_get? {α β} {f : α → Option β} {l : List α} {ys : List β}
    (h : mapOption f l = some ys) (i : Nat) : ys.get? i = (l.get? i).bind f := by
  induction l generalizing ys i with
  | nil =>
    simp only [mapOption, Option.some.injEq] at h
    subst h; simp
  | cons x xs ih =>
    simp only [mapOption] at h
    cases hx : f x with
    | none => rw [hx] at h; exact absurd h (by simp)
    | some y =>
      cases hxs : mapOption f xs with
      | none => rw [hx, hxs] at h; exact absurd h (by simp)
      | some zs =>
        rw [hx, hxs] at h
        simp only [Option.some.injEq] at h
        subst h
        cases i with
        | zero => simp [hx]
        | succ j => simpa using ih hxs j

theorem idxOfTag_lt {l : List TypeTag} {t : TypeTag} {i : Nat}
    (h : idxOfTag l t = some i) : i < l.length := by
  induction l generalizing i with
  | nil => simp [idxOfTag] at h
  | cons y ys ih =>
    simp only [idxOfTag] at h
    by_cases hy : y = t
    · rw [if_pos hy] at h
      simp only [Option.some.injEq] at h
      subst h; simp
    · rw [if_neg hy] at h
      cases hr : idxOfTag ys t with
      | none => rw [hr] at h; exact absurd h (by simp)
      | some j =>
        rw [hr] at h
        simp only [Option.map_some', Option.some.injEq] at h
        subst h
        simpa using ih hr

theorem get_component_type_index_lt {r : Registry} {e : Entity} {v : Nat}
    (h : get_component_type_index r e = some v) : v < r.component_types.length :=
  idxOfTag_lt h

theorem getD_of_get? {l : List Nat} {i t : Nat} (h : l.get? i = some t) :
    l.getD i 0 = t := by
  rw [List.getD_eq_getD_get?, h]; rfl

theorem get?_lt_length {α} {l : List α} {i : Nat} {x : α} (h : l.get? i = some x) :
    i < l.length :=
  List.get?_eq_some.mp h |>.1

/-- Every type index produced by a successful `mapOption` over
`get_component_type_index` is inside the enumeration. -/
theorem types_getD_lt {r : Registry} {ents : List Entity} {types : List Nat}
    (h : mapOption (get_component_type_index r) ents = some types) :
    ∀ i, i < types.length → types.getD i 0 < r.component_types.length := by
  intro i hi
  cases hy : types.get? i with
  | none =>
    rw [List.get?_eq_none] at hy
    omega
  | some t =>
    have hb := mapOption_get? h i
    rw [hy] at hb
    cases he : ents.get? i with
    | none => rw [he] at hb; exact absurd hb.symm (by simp)
    | some ent =>
      rw [he] at hb
      simp only [Option.some_bind] at hb
      rw [getD_of_get? hy]
      exact get_component_type_index_lt hb.symm

theorem rowSum_congr {v w : Nat → Nat} {T : Nat} (h : ∀ c, c < T → v c = w c) :
    rowSum v T = rowSum w T :=
  Finset.sum_congr rfl (fun c hc => h c (Finset.mem_range.mp hc))

theorem rowSum_onehot {t T : Nat} (h : t < T) :
    rowSum (fun c => if c = t then 1 else 0) T = 1 := by
  simp [rowSum, Finset.sum_ite_eq', Finset.mem_range, h]

theorem rowSum_zero {T : Nat} : rowSum (fun _ => 0) T = 0 := by
  simp [rowSum]

theorem pySum_cons (a : Nat) (l : List Nat) : pySum (a :: l) = a + pySum l := by
  have key : ∀ (l : List Nat) (i j : Nat),
      l.foldl (· + ·) (i + j) = i + l.foldl (· + ·) j := by
    intro l
    induction l with
    | nil => intro i j; rfl
    | cons x xs ih => intro i j; simpa [Nat.add_assoc] using ih i (j + x)
  simpa [pySum] using key l a 0

theorem pySum_eq_sum (l : List Nat) : pySum l = l.sum := by
  induction l with
  | nil => rfl
  | cons a l ih => rw [pySum_cons, ih, List.sum_cons]

theorem foldl_max_spec : ∀ (l : List Nat) (i : Nat),
    (l.foldl max i = i ∨ l.foldl max i ∈ l) ∧ i ≤ l.foldl max i ∧
      ∀ x ∈ l, x ≤ l.foldl max i := by
  intro l
  induction l with
  | nil => intro i; exact ⟨Or.inl rfl, Nat.le_refl i, by simp⟩
  | cons x xs ih =>
    intro i
    obtain ⟨h1, h2, h3⟩ := ih (max i x)
    refine ⟨?_, ?_, ?_⟩
    · show xs.foldl max (max i x) = i ∨ xs.foldl max (max i x) ∈ x :: xs
      rcases h1 with h1 | h1
      · rcases Nat.le_total i x with hx | hx
        · exact Or.inr (by rw [h1, Nat.max_eq_right hx]; exact List.mem_cons_self x xs)
        · exact Or.inl (by rw [h1, Nat.max_eq_left hx])
      · exact Or.inr (List.mem_cons_of_mem x h1)
    · exact Nat.le_trans (Nat.le_max_left i x) h2
    · intro z hz
      rcases List.mem_cons.mp hz with hz | hz
      · rw [hz]
        exact Nat.le_trans (Nat.le_max_right i x) h2
      · exact h3 z hz

/-- `max(counts)` is a member and an upper bound. -/
theorem pyMax_spec {l : List Nat} {m : Nat} (h : pyMax l = some m) :
    m ∈ l ∧ ∀ x ∈ l, x ≤ m := by
  cases l with
  | nil => simp [pyMax] at h
  | cons c cs =>
    simp only [pyMax, Option.some.injEq] at h
    subst h
    obtain ⟨h1, h2, h3⟩ := foldl_max_spec cs c
    refine ⟨?_, ?_⟩
    · rcases h1 with h1 | h1
      · rw [h1]; exact List.mem_cons_self c cs
      · exact List.mem_cons_of_mem c h1
    · intro x hx
      rcases List.mem_cons.mp hx with hx | hx
      · rw [hx]; exact h2
      · exact h3 x hx

/-! ### Pointwise characterization of the encoder loops -/

theorem maskedStep_fst (adjn : Nat) (adjf : T2) (types : List Nat) (AX : T3 × T3)
    (idx s r c : Nat) :
    (maskedStep adjn adjf types AX idx).1 s r c =
      if s = idx ∧ r < adjn ∧ c < adjn then adjf r c else AX.1 s r c := rfl

theorem maskedStep_snd (adjn : Nat) (adjf : T2) (types : List Nat) (AX : T3 × T3)
    (idx s r c : Nat) :
    (maskedStep adjn adjf types AX idx).2 s r c =
      if s = idx ∧ r = idx ∧ c = 0 then 1
      else if s = idx ∧ r = idx ∧ c = types.getD idx 0 then 0
      else AX.2 s r c := rfl

theorem omittedStep_fst (adjn : Nat) (adjf : T2) (types : List Nat) (AX : T3 × T3)
    (idx s r c : Nat) :
    (omittedStep adjn adjf types AX idx).1 s r c =
      if s = idx ∧ r = idx then 0
      else if s = idx ∧ c = idx then 0
      else if s = idx ∧ r < adjn ∧ c < adjn then adjf r c
      else AX.1 s r c := rfl

theorem omittedStep_snd (adjn : Nat) (adjf : T2) (types : List Nat) (AX : T3 × T3)
    (idx s r c : Nat) :
    (omittedStep adjn adjf types AX idx).2 s r c =
      if s = idx ∧ r = idx ∧ c = types.getD idx 0 then 0 else AX.2 s r c := rfl

/-- Samples not visited by the masked loop keep their input values. -/
theorem maskedFoldl_not_mem (adjn : Nat) (adjf : T2) (types : List Nat) :
    ∀ (l : List Nat) (AX : T3 × T3) (s : Nat), s ∉ l →
      ∀ r c, (l.foldl (maskedStep adjn adjf types) AX).1 s r c = AX.1 s r c ∧
        (l.foldl (maskedStep adjn adjf types) AX).2 s r c = AX.2 s r c := by
  intro l
  induction l with
  | nil => intro AX s _ r c; exact ⟨rfl, rfl⟩
  | cons a l ih =>
    intro AX s hs r c
    have hsa : s ≠ a := fun h => hs (h ▸ List.mem_cons_self a l)
    have hsl : s ∉ l := fun h => hs (List.mem_cons_of_mem a h)
    rw [List.foldl_cons]
    refine ⟨(ih _ s hsl r c).1.trans ?_, (ih _ s hsl r c).2.trans ?_⟩
    · rw [maskedStep_fst, if_neg (fun hh => hsa hh.1)]
    · rw [maskedStep_snd, if_neg (fun hh => hsa hh.1), if_neg (fun hh => hsa hh.1)]

/-- Samples not visited by the omission loop keep their input values. -/
theorem omittedFoldl_not_mem (adjn : Nat) (adjf : T2) (types : List Nat) :
    ∀ (l : List Nat) (AX : T3 × T3) (s : Nat), s ∉ l →
      ∀ r c, (l.foldl (omittedStep adjn adjf types) AX).1 s r c = AX.1 s r c ∧
        (l.foldl (omittedStep adjn adjf types) AX).2 s r c = AX.2 s r c := by
  intro l
  induction l with
  | nil => intro AX s _ r c; exact ⟨rfl, rfl⟩
  | cons a l ih =>
    intro AX s hs r c
    have hsa : s ≠ a := fun h => hs (h ▸ List.mem_cons_self a l)
    have hsl : s ∉ l := fun h => hs (List.mem_cons_of_mem a h)
    rw [List.foldl_cons]
    refine ⟨(ih _ s hsl r c).1.trans ?_, (ih _ s hsl r c).2.trans ?_⟩
    · rw [omittedStep_fst, if_neg (fun hh => hsa hh.1), if_neg (fun hh => hsa hh.1),
        if_neg (fun hh => hsa hh.1)]
    · rw [omittedStep_snd, if_neg (fun hh => hsa hh.1)]

/-- The adjacency tensor after the masked loop: every visited sample holds a
copy of the adjacency block, everything else is untouched. -/
theorem maskedFold_A (adjn : Nat) (adjf : T2) (types : List Nat) (n : Nat)
    (AX : T3 × T3) (s r c : Nat) :
    ((List.range n).foldl (maskedStep adjn adjf types) AX).1 s r c =
      if s < n ∧ r < adjn ∧ c < adjn then adjf r c else AX.1 s r c := by
  induction n with
  | zero => simp
  | succ m ih =>
    rw [List.range_succ, List.foldl_append, List.foldl_cons, List.foldl_nil,
      maskedStep_fst, ih]
    by_cases hs : s = m
    · subst hs
      split_ifs <;> first | rfl | omega
    · split_ifs <;> first | rfl | omega

/-- The feature tensor after the masked loop: in every visited sample `s`
the diagonal row `s` became the "unknown" one-hot write pattern; everything
else is untouched. -/
theorem maskedFold_X (adjn : Nat) (adjf : T2) (types : List Nat) (n : Nat)
    (AX : T3 × T3) (s r c : Nat) :
    ((List.range n).foldl (maskedStep adjn adjf types) AX).2 s r c =
      if s < n ∧ r = s then
        (if c = 0 then 1 else if c = types.getD s 0 then 0 else AX.2 s r c)
      else AX.2 s r c := by
  induction n with
  | zero => simp
  | succ m ih =>
    rw [List.range_succ, List.foldl_append, List.foldl_cons, List.foldl_nil,
      maskedStep_snd, ih]
    by_cases hs : s = m
    · subst hs
      split_ifs <;> first | rfl | omega
    · split_ifs <;> first | rfl | omega

/-- The adjacency tensor after the omission loop: every visited sample holds
the adjacency block with row `s` and column `s` cleared. -/
theorem omittedFold_A (adjn : Nat) (adjf : T2) (types : List Nat) (n : Nat)
    (AX : T3 × T3) (s r c : Nat) :
    ((List.range n).foldl (omittedStep adjn adjf types) AX).1 s r c =
      if s < n then
        (if r = s then 0 else if c = s then 0
         else if r < adjn ∧ c < adjn then adjf r c else AX.1 s r c)
      else AX.1 s r c := by
  induction n with
  | zero => simp
  | succ m ih =>
    rw [List.range_succ, List.foldl_append, List.foldl_cons, List.foldl_nil,
      omittedStep_fst, ih]
    by_cases hs : s = m
    · subst hs
      split_ifs <;> first | rfl | omega
    · split_ifs <;> first | rfl | omega

/-- The feature tensor after the omission loop: in every visited sample `s`
only the true-type bit of diagonal row `s` was cleared. -/
theorem omittedFold_X (adjn : Nat) (adjf : T2) (types : List Nat) (n : Nat)
    (AX : T3 × T3) (s r c : Nat) :
    ((List.range n).foldl (omittedStep adjn adjf types) AX).2 s r c =
      if s < n ∧ r = s ∧ c = types.getD s 0 then 0 else AX.2 s r c := by
  induction n with
  | zero => simp
  | succ m ih =>
    rw [List.range_succ, List.foldl_append, List.foldl_cons, List.foldl_nil,
      omittedStep_snd, ih]
    by_cases hs : s = m
    · subst hs
      split_ifs <;> first | rfl | omega
    · split_ifs <;> first | rfl | omega

/-- Closed form of `encode_masked_netlist` on the zero-initialized tensors
every call site hands it. -/
theorem encode_masked_spec (r : Registry) (g : CGraph) {A X y : T3}
    (h : encode_masked_netlist r g zero3 zero3 zero3 = some (A, X, y)) :
    ∃ types, mapOption (get_component_type_index r) g.entities = some types ∧
      types.length = g.entities.length ∧
      (∀ s rr cc, A s rr cc =
        if s < types.length ∧ rr < g.n ∧ cc < g.n then g.adj rr cc else 0) ∧
      (∀ s rr cc, X s rr cc =
        if s < types.length ∧ rr = s then (if cc = 0 then 1 else 0)
        else if rr < types.length ∧ cc = types.getD rr 0 then 1 else 0) ∧
      (∀ s rr cc, y s rr cc =
        if rr < types.length ∧ cc = types.getD rr 0 then 1 else 0) := by
  obtain ⟨types, ht, hbody⟩ := Option.map_eq_some'.mp h
  refine ⟨types, ht, mapOption_length ht, ?_, ?_, ?_⟩
  · intro s rr cc
    have hA : A = ((List.range types.length).foldl
        (maskedStep g.n g.adj types) (zero3, setRowOneHots zero3 types)).1 := by
      simp only [Prod.mk.injEq] at hbody
      exact hbody.1.symm
    rw [hA, maskedFold_A]
    simp only [zero3]
  · intro s rr cc
    have hX : X = ((List.range types.length).foldl
        (maskedStep g.n g.adj types) (zero3, setRowOneHots zero3 types)).2 := by
      simp only [Prod.mk.injEq] at hbody
      exact hbody.2.1.symm
    rw [hX, maskedFold_X]
    simp only [setRowOneHots, zero3]
    by_cases hrs : rr = s
    · subst hrs
      split_ifs <;> first | rfl | omega
    · split_ifs <;> first | rfl | omega
  · intro s rr cc
    have hy : y = setRowOneHots zero3 types := by
      simp only [Prod.mk.injEq] at hbody
      exact hbody.2.2.symm
    rw [hy]
    simp only [setRowOneHots, zero3]

/-- Closed form of `encode_omitted_netlist` on the zero-initialized tensors
every call site hands it. -/
theorem encode_omitted_spec (r : Registry) (g : CGraph) {A X : T3} {y : T2}
    (h : encode_omitted_netlist r g zero3 zero3 zero2 = some (A, X, y)) :
    ∃ types, mapOption (get_component_type_index r) g.entities = some types ∧
      types.length = g.entities.length ∧
      (∀ s rr cc, A s rr cc =
        if s < types.length ∧ rr ≠ s ∧ cc ≠ s ∧ rr < g.n ∧ cc < g.n
        then g.adj rr cc else 0) ∧
      (∀ s rr cc, X s rr cc =
        if s < types.length ∧ rr = s ∧ cc = types.getD s 0 then 0
        else if rr < types.length ∧ cc = types.getD rr 0 then 1 else 0) ∧
      (∀ s cc, y s cc =
        if s < types.length ∧ cc = types.getD s 0 then 1 else 0) := by
  obtain ⟨types, ht, hbody⟩ := Option.map_eq_some'.mp h
  refine ⟨types, ht, mapOption_length ht, ?_, ?_, ?_⟩
  · intro s rr cc
    have hA : A = ((List.range types.length).foldl
        (omittedStep g.n g.adj types) (zero3, setRowOneHots zero3 types)).1 := by
      simp only [Prod.mk.injEq] at hbody
      exact hbody.1.symm
    rw [hA, omittedFold_A]
    simp only [zero3]
    split_ifs <;> first | rfl | omega
  · intro s rr cc
    have hX : X = ((List.range types.length).foldl
        (omittedStep g.n g.adj types) (zero3, setRowOneHots zero3 types)).2 := by
      simp only [Prod.mk.injEq] at hbody
      exact hbody.2.1.symm
    rw [hX, omittedFold_X]
    simp only [setRowOneHots, zero3]
  · intro s cc
    have hy : y = setRowOneHots2 zero2 types := by
      simp only [Prod.mk.injEq] at hbody
      exact hbody.2.2.symm
    rw [hy]
    simp only [setRowOneHots2, zero2]

/-! ### The batched loaders -/

/-- All samples from `k` on are still zero. -/
def ZeroFrom3 (A : T3) (k : Nat) : Prop := ∀ s rr cc, k ≤ s → A s rr cc = 0

/-- All rows from `k` on are still zero. -/
def ZeroFrom2 (y : T2) (k : Nat) : Prop := ∀ s cc, k ≤ s → y s cc = 0

/-- The per-file entity counts of a corpus of graphs. -/
def countsOf (gs : List CGraph) : List Nat := gs.map (fun g => g.entities.length)

theorem slice3_eq_zero3 {A : T3} {start : Nat} (h : ZeroFrom3 A start) :
    slice3 A start = zero3 :=
  funext fun s => funext fun rr => funext fun cc =>
    h (start + s) rr cc (Nat.le_add_right start s)

theorem slice2_eq_zero2 {y : T2} {start : Nat} (h : ZeroFrom2 y start) :
    slice2 y start = zero2 :=
  funext fun s => funext fun cc => h (start + s) cc (Nat.le_add_right start s)

/-- What the per-file loop of `load_omitted_netlists` writes: the files'
encodings are laid out consecutively along the sample axis, and earlier
samples are untouched. -/
theorem omittedLoadLoop_spec (r : Registry) :
    ∀ (gs : List CGraph) (A X : T3) (y : T2) (start : Nat),
      ZeroFrom3 A start → ZeroFrom3 X start → ZeroFrom2 y start →
      (∀ g ∈ gs, (mapOption (get_component_type_index r) g.entities).isSome) →
      ∃ A' X' y' start',
        omittedLoadLoop r gs A X y start = some (A', X', y', start') ∧
        start' = start + pySum (countsOf gs) ∧
        (∀ s rr cc, s < start → A' s rr cc = A s rr cc) ∧
        (∀ s rr cc, s < start → X' s rr cc = X s rr cc) ∧
        (∀ s cc, s < start → y' s cc = y s cc) ∧
        ZeroFrom3 A' start' ∧ ZeroFrom3 X' start' ∧ ZeroFrom2 y' start' ∧
        (∀ f (hf : f < gs.length) j, j < (gs.get ⟨f, hf⟩).entities.length →
          ∃ Af Xf yf,
            encode_omitted_netlist r (gs.get ⟨f, hf⟩) zero3 zero3 zero2 =
              some (Af, Xf, yf) ∧
            (∀ rr cc,
              A' (start + pySum ((countsOf gs).take f) + j) rr cc = Af j rr cc) ∧
            (∀ rr cc,
              X' (start + pySum ((countsOf gs).take f) + j) rr cc = Xf j rr cc) ∧
            (∀ cc,
              y' (start + pySum ((countsOf gs).take f) + j) cc = yf j cc)) := by
  intro gs
  induction gs with
  | nil =>
    intro A X y start hA hX hy _
    refine ⟨A, X, y, start, rfl, by simp [countsOf, pySum], ?_, ?_, ?_, ?_, ?_, ?_, ?_⟩
    · intro s rr cc _; rfl
    · intro s rr cc _; rfl
    · intro s cc _; rfl
    · simpa [countsOf, pySum] using hA
    · simpa [countsOf, pySum] using hX
    · simpa [countsOf, pySum] using hy
    · intro f hf
      exact absurd hf (by simp)
  | cons g gs ih =>
    intro A X y start hA hX hy hok
    have hgok := hok g (List.mem_cons_self g gs)
    obtain ⟨types, hty⟩ := Option.isSome_iff_exists.mp hgok
    obtain ⟨⟨Af, Xf, yf⟩, hE⟩ : ∃ t,
        encode_omitted_netlist r g zero3 zero3 zero2 = some t := by
      rw [encode_omitted_netlist, hty]
      exact ⟨_, rfl⟩
    have hn : (countsOf (g :: gs)) = g.entities.length :: countsOf gs := rfl
    set n := g.entities.length with hdefn
    have hloopstep : omittedLoadLoop r (g :: gs) A X y start =
        omittedLoadLoop r gs (splice3 A start n Af) (splice3 X start n Xf)
          (splice2 y start n yf) (start + n) := by
      rw [omittedLoadLoop, slice3_eq_zero3 hA, slice3_eq_zero3 hX,
        slice2_eq_zero2 hy, hE]
    have hA1 : ZeroFrom3 (splice3 A start n Af) (start + n) := by
      intro s rr cc hs
      rw [splice3, if_neg (by omega)]
      exact hA s rr cc (by omega)
    have hX1 : ZeroFrom3 (splice3 X start n Xf) (start + n) := by
      intro s rr cc hs
      rw [splice3, if_neg (by omega)]
      exact hX s rr cc (by omega)
    have hy1 : ZeroFrom2 (splice2 y start n yf) (start + n) := by
      intro s cc hs
      rw [splice2, if_neg (by omega)]
      exact hy s cc (by omega)
    obtain ⟨A', X', y', start', hloop, hstart, huA, huX, huy, hzA, hzX, hzy, hplace⟩ :=
      ih (splice3 A start n Af) (splice3 X start n Xf) (splice2 y start n yf)
        (start + n) hA1 hX1 hy1 (fun g' hg' => hok g' (List.mem_cons_of_mem g hg'))
    refine ⟨A', X', y', start', by rw [hloopstep]; exact hloop, ?_, ?_, ?_, ?_, ?_, ?_, ?_, ?_⟩
    · rw [hstart, hn, pySum_cons]; omega
    · intro s rr cc hs
      rw [huA s rr cc (by omega), splice3, if_neg (by omega)]
    · intro s rr cc hs
      rw [huX s rr cc (by omega), splice3, if_neg (by omega)]
    · intro s cc hs
      rw [huy s cc (by omega), splice2, if_neg (by omega)]
    · exact hzA
    · exact hzX
    · exact hzy
    · intro f hf j hj
      cases f with
      | zero =>
        refine ⟨Af, Xf, yf, hE, ?_, ?_, ?_⟩
        · intro rr cc
          have hjn : j < n := hj
          have hpos : start + pySum ((countsOf (g :: gs)).take 0) + j = start + j := by
            simp [pySum]
          rw [hpos, huA (start + j) rr cc (by omega), splice3,
            if_pos (by omega)]
          congr 1
          omega
        · intro rr cc
          have hjn : j < n := hj
          have hpos : start + pySum ((countsOf (g :: gs)).take 0) + j = start + j := by
            simp [pySum]
          rw [hpos, huX (start + j) rr cc (by omega), splice3,
            if_pos (by omega)]
          congr 1
          omega
        · intro cc
          have hjn : j < n := hj
          have hpos : start + pySum ((countsOf (g :: gs)).take 0) + j = start + j := by
            simp [pySum]
          rw [hpos, huy (start + j) cc (by omega), splice2,
            if_pos (by omega)]
          congr 1
          omega
      | succ f' =>
        have hf' : f' < gs.length := by simpa using hf
        have hget : (g :: gs).get ⟨f' + 1, hf⟩ = gs.get ⟨f', hf'⟩ := rfl
        obtain ⟨Af', Xf', yf', hE', hpA, hpX, hpy⟩ := hplace f' hf' j (by
          rw [hget] at hj
          exact hj)
        have hpos : start + pySum ((countsOf (g :: gs)).take (f' + 1)) + j =
            start + n + pySum ((countsOf gs).take f') + j := by
          rw [hn, List.take_succ_cons, pySum_cons]
          omega
        refine ⟨Af', Xf', yf', by rw [hget]; exact hE', ?_, ?_, ?_⟩
        · intro rr cc
          rw [hpos]
          exact hpA rr cc
        · intro rr cc
          rw [hpos]
          exact hpX rr cc
        · intro cc
          rw [hpos]
          exact hpy cc

/-- What the per-file loop of `load_masked_netlists` writes: the files'
encodings are laid out consecutively along the sample axis, and earlier
samples are untouched. -/
theorem maskedLoadLoop_spec (r : Registry) :
    ∀ (gs : List CGraph) (A X y : T3) (start : Nat),
      ZeroFrom3 A start → ZeroFrom3 X start → ZeroFrom3 y start →
      (∀ g ∈ gs, (mapOption (get_component_type_index r) g.entities).isSome) →
      ∃ A' X' y' start',
        maskedLoadLoop r gs A X y start = some (A', X', y', start') ∧
        start' = start + pySum (countsOf gs) ∧
        (∀ s rr cc, s < start → A' s rr cc = A s rr cc) ∧
        (∀ s rr cc, s < start → X' s rr cc = X s rr cc) ∧
        (∀ s rr cc, s < start → y' s rr cc = y s rr cc) ∧
        ZeroFrom3 A' start' ∧ ZeroFrom3 X' start' ∧ ZeroFrom3 y' start' ∧
        (∀ f (hf : f < gs.length) j, j < (gs.get ⟨f, hf⟩).entities.length →
          ∃ Af Xf yf,
            encode_masked_netlist r (gs.get ⟨f, hf⟩) zero3 zero3 zero3 =
              some (Af, Xf, yf) ∧
            (∀ rr cc,
              A' (start + pySum ((countsOf gs).take f) + j) rr cc = Af j rr cc) ∧
            (∀ rr cc,
              X' (start + pySum ((countsOf gs).take f) + j) rr cc = Xf j rr cc) ∧
            (∀ rr cc,
              y' (start + pySum ((countsOf gs).take f) + j) rr cc = yf j rr cc)) := by
  intro gs
  induction gs with
  | nil =>
    intro A X y start hA hX hy _
    refine ⟨A, X, y, start, rfl, by simp [countsOf, pySum], ?_, ?_, ?_, ?_, ?_, ?_, ?_⟩
    · intro s rr cc _; rfl
    · intro s rr cc _; rfl
    · intro s rr cc _; rfl
    · simpa [countsOf, pySum] using hA
    · simpa [countsOf, pySum] using hX
    · simpa [countsOf, pySum] using hy
    · intro f hf
      exact absurd hf (by simp)
  | cons g gs ih =>
    intro A X y start hA hX hy hok
    have hgok := hok g (List.mem_cons_self g gs)
    obtain ⟨types, hty⟩ := Option.isSome_iff_exists.mp hgok
    obtain ⟨⟨Af, Xf, yf⟩, hE⟩ : ∃ t,
        encode_masked_netlist r g zero3 zero3 zero3 = some t := by
      rw [encode_masked_netlist, hty]
      exact ⟨_, rfl⟩
    have hn : (countsOf (g :: gs)) = g.entities.length :: countsOf gs := rfl
    set n := g.entities.length with hdefn
    have hloopstep : maskedLoadLoop r (g :: gs) A X y start =
        maskedLoadLoop r gs (splice3 A start n Af) (splice3 X start n Xf)
          (splice3 y start n yf) (start + n) := by
      rw [maskedLoadLoop, slice3_eq_zero3 hA, slice3_eq_zero3 hX,
        slice3_eq_zero3 hy, hE]
    have hA1 : ZeroFrom3 (splice3 A start n Af) (start + n) := by
      intro s rr cc hs
      rw [splice3, if_neg (by omega)]
      exact hA s rr cc (by omega)
    have hX1 : ZeroFrom3 (splice3 X start n Xf) (start + n) := by
      intro s rr cc hs
      rw [splice3, if_neg (by omega)]
      exact hX s rr cc (by omega)
    have hy1 : ZeroFrom3 (splice3 y start n yf) (start + n) := by
      intro s rr cc hs
      rw [splice3, if_neg (by omega)]
      exact hy s rr cc (by omega)
    obtain ⟨A', X', y', start', hloop, hstart, huA, huX, huy, hzA, hzX, hzy, hplace⟩ :=
      ih (splice3 A start n Af) (splice3 X start n Xf) (splice3 y start n yf)
        (start + n) hA1 hX1 hy1 (fun g' hg' => hok g' (List.mem_cons_of_mem g hg'))
    refine ⟨A', X', y', start', by rw [hloopstep]; exact hloop, ?_, ?_, ?_, ?_, ?_, ?_, ?_, ?_⟩
    · rw [hstart, hn, pySum_cons]; omega
    · intro s rr cc hs
      rw [huA s rr cc (by omega), splice3, if_neg (by omega)]
    · intro s rr cc hs
      rw [huX s rr cc (by omega), splice3, if_neg (by omega)]
    · intro s rr cc hs
      rw [huy s rr cc (by omega), splice3, if_neg (by omega)]
    · exact hzA
    · exact hzX
    · exact hzy
    · intro f hf j hj
      cases f with
      | zero =>
        refine ⟨Af, Xf, yf, hE, ?_, ?_, ?_⟩
        · intro rr cc
          have hjn : j < n := hj
          have hpos : start + pySum ((countsOf (g :: gs)).take 0) + j = start + j := by
            simp [pySum]
          rw [hpos, huA (start + j) rr cc (by omega), splice3,
            if_pos (by omega)]
          congr 1
          omega
        · intro rr cc
          have hjn : j < n := hj
          have hpos : start + pySum ((countsOf (g :: gs)).take 0) + j = start + j := by
            simp [pySum]
          rw [hpos, huX (start + j) rr cc (by omega), splice3,
            if_pos (by omega)]
          congr 1
          omega
        · intro rr cc
          have hjn : j < n := hj
          have hpos : start + pySum ((countsOf (g :: gs)).take 0) + j = start + j := by
            simp [pySum]
          rw [hpos, huy (start + j) rr cc (by omega), splice3,
            if_pos (by omega)]
          congr 1
          omega
      | succ f' =>
        have hf' : f' < gs.length := by simpa using hf
        have hget : (g :: gs).get ⟨f' + 1, hf⟩ = gs.get ⟨f', hf'⟩ := rfl
        obtain ⟨Af', Xf', yf', hE', hpA, hpX, hpy⟩ := hplace f' hf' j (by
          rw [hget] at hj
          exact hj)
        have hpos : start + pySum ((countsOf (g :: gs)).take (f' + 1)) + j =
            start + n + pySum ((countsOf gs).take f') + j := by
          rw [hn, List.take_succ_cons, pySum_cons]
          omega
        refine ⟨Af', Xf', yf', by rw [hget]; exact hE', ?_, ?_, ?_⟩
        · intro rr cc
          rw [hpos]
          exact hpA rr cc
        · intro rr cc
          rw [hpos]
          exact hpX rr cc
        · intro rr cc
          rw [hpos]
          exact hpy rr cc

/-- `load_omitted_netlists` on a non-empty corpus whose type lookups all
succeed: the batch exists, its sample count is the sum of the per-file
entity counts, its padding width is `max(counts)`, samples beyond the batch
are zero, and sample `offset(f) + j` holds file `f`'s encoding of entity
`j`. -/
theorem load_omitted_netlists_spec (r : Registry) (files : List (List Element))
    (hne : files ≠ [])
    (hok : ∀ es ∈ files,
      (mapOption (get_component_type_index r) (netlist_as_graph es).entities).isSome) :
    ∃ b, load_omitted_netlists r files = some b ∧
      b.data_count = pySum (countsOf (files.map netlist_as_graph)) ∧
      pyMax (countsOf (files.map netlist_as_graph)) = some b.max_components ∧
      ZeroFrom3 b.A b.data_count ∧ ZeroFrom3 b.X b.data_count ∧
      ZeroFrom2 b.y b.data_count ∧
      (∀ f (hf : f < files.length) j,
        j < (netlist_as_graph (files.get ⟨f, hf⟩)).entities.length →
        ∃ Af Xf yf,
          encode_omitted_netlist r (netlist_as_graph (files.get ⟨f, hf⟩))
            zero3 zero3 zero2 = some (Af, Xf, yf) ∧
          (∀ rr cc,
            b.A (pySum ((countsOf (files.map netlist_as_graph)).take f) + j) rr cc =
              Af j rr cc) ∧
          (∀ rr cc,
            b.X (pySum ((countsOf (files.map netlist_as_graph)).take f) + j) rr cc =
              Xf j rr cc) ∧
          (∀ cc,
            b.y (pySum ((countsOf (files.map netlist_as_graph)).take f) + j) cc =
              yf j cc)) := by
  cases files with
  | nil => exact absurd rfl hne
  | cons f0 fs =>
    obtain ⟨A', X', y', start', hloop, hstart, _, _, _, hzA, hzX, hzy, hplace⟩ :=
      omittedLoadLoop_spec r ((f0 :: fs).map netlist_as_graph) zero3 zero3 zero2 0
        (fun _ _ _ _ => rfl) (fun _ _ _ _ => rfl) (fun _ _ _ => rfl)
        (by
          intro g hg
          obtain ⟨es, hes, hges⟩ := List.mem_map.mp hg
          exact hges ▸ hok es hes)
    refine ⟨⟨pySum (countsOf ((f0 :: fs).map netlist_as_graph)),
      (countsOf (fs.map netlist_as_graph)).foldl max
        (netlist_as_graph f0).entities.length, A', X', y'⟩, ?_, rfl, rfl, ?_, ?_, ?_, ?_⟩
    · have hunfold : load_omitted_netlists r (f0 :: fs) =
          match omittedLoadLoop r ((f0 :: fs).map netlist_as_graph)
              zero3 zero3 zero2 0 with
          | none => none
          | some res =>
            some ⟨pySum (countsOf ((f0 :: fs).map netlist_as_graph)),
              (countsOf (fs.map netlist_as_graph)).foldl max
                (netlist_as_graph f0).entities.length,
              res.1, res.2.1, res.2.2.1⟩ := rfl
      rw [hunfold, hloop]
    · show ZeroFrom3 A' (pySum (countsOf ((f0 :: fs).map netlist_as_graph)))
      intro s rr cc hs
      exact hzA s rr cc (by omega)
    · show ZeroFrom3 X' (pySum (countsOf ((f0 :: fs).map netlist_as_graph)))
      intro s rr cc hs
      exact hzX s rr cc (by omega)
    · show ZeroFrom2 y' (pySum (countsOf ((f0 :: fs).map netlist_as_graph)))
      intro s cc hs
      exact hzy s cc (by omega)
    · intro f hf j hj
      have hget : ((f0 :: fs).map netlist_as_graph).get
          ⟨f, by simpa using hf⟩ = netlist_as_graph ((f0 :: fs).get ⟨f, hf⟩) :=
        List.get_map _
      obtain ⟨Af, Xf, yf, hE, hpA, hpX, hpy⟩ :=
        hplace f (by simpa using hf) j (by rw [hget]; exact hj)
      rw [hget] at hE
      refine ⟨Af, Xf, yf, hE, ?_, ?_, ?_⟩
      · intro rr cc
        have := hpA rr cc
        rwa [Nat.zero_add] at this
      · intro rr cc
        have := hpX rr cc
        rwa [Nat.zero_add] at this
      · intro cc
        have := hpy cc
        rwa [Nat.zero_add] at this

/-- `load_masked_netlists` on a non-empty corpus whose type lookups all
succeed: same layout facts as the omitted loader, with a 3-axis `y`. -/
theorem load_masked_netlists_spec (r : Registry) (files : List (List Element))
    (hne : files ≠ [])
    (hok : ∀ es ∈ files,
      (mapOption (get_component_type_index r) (netlist_as_graph es).entities).isSome) :
    ∃ b, load_masked_netlists r files = some b ∧
      b.data_count = pySum (countsOf (files.map netlist_as_graph)) ∧
      pyMax (countsOf (files.map netlist_as_graph)) = some b.max_components ∧
      ZeroFrom3 b.A b.data_count ∧ ZeroFrom3 b.X b.data_count ∧
      ZeroFrom3 b.y b.data_count ∧
      (∀ f (hf : f < files.length) j,
        j < (netlist_as_graph (files.get ⟨f, hf⟩)).entities.length →
        ∃ Af Xf yf,
          encode_masked_netlist r (netlist_as_graph (files.get ⟨f, hf⟩))
            zero3 zero3 zero3 = some (Af, Xf, yf) ∧
          (∀ rr cc,
            b.A (pySum ((countsOf (files.map netlist_as_graph)).take f) + j) rr cc =
              Af j rr cc) ∧
          (∀ rr cc,
            b.X (pySum ((countsOf (files.map netlist_as_graph)).take f) + j) rr cc =
              Xf j rr cc) ∧
          (∀ rr cc,
            b.y (pySum ((countsOf (files.map netlist_as_graph)).take f) + j) rr cc =
              yf j rr cc)) := by
  cases files with
  | nil => exact absurd rfl hne
  | cons f0 fs =>
    obtain ⟨A', X', y', start', hloop, hstart, _, _, _, hzA, hzX, hzy, hplace⟩ :=
      maskedLoadLoop_spec r ((f0 :: fs).map netlist_as_graph) zero3 zero3 zero3 0
        (fun _ _ _ _ => rfl) (fun _ _ _ _ => rfl) (fun _ _ _ _ => rfl)
        (by
          intro g hg
          obtain ⟨es, hes, hges⟩ := List.mem_map.mp hg
          exact hges ▸ hok es hes)
    refine ⟨⟨pySum (countsOf ((f0 :: fs).map netlist_as_graph)),
      (countsOf (fs.map netlist_as_graph)).foldl max
        (netlist_as_graph f0).entities.length, A', X', y'⟩, ?_, rfl, rfl, ?_, ?_, ?_, ?_⟩
    · have hunfold : load_masked_netlists r (f0 :: fs) =
          match maskedLoadLoop r ((f0 :: fs).map netlist_as_graph)
              zero3 zero3 zero3 0 with
          | none => none
          | some res =>
            some ⟨pySum (countsOf ((f0 :: fs).map netlist_as_graph)),
              (countsOf (fs.map netlist_as_graph)).foldl max
                (netlist_as_graph f0).entities.length,
              res.1, res.2.1, res.2.2.1⟩ := rfl
      rw [hunfold, hloop]
    · show ZeroFrom3 A' (pySum (countsOf ((f0 :: fs).map netlist_as_graph)))
      intro s rr cc hs
      exact hzA s rr cc (by omega)
    · show ZeroFrom3 X' (pySum (countsOf ((f0 :: fs).map netlist_as_graph)))
      intro s rr cc hs
      exact hzX s rr cc (by omega)
    · show ZeroFrom3 y' (pySum (countsOf ((f0 :: fs).map netlist_as_graph)))
      intro s rr cc hs
      exact hzy s rr cc (by omega)
    · intro f hf j hj
      have hget : ((f0 :: fs).map netlist_as_graph).get
          ⟨f, by simpa using hf⟩ = netlist_as_graph ((f0 :: fs).get ⟨f, hf⟩) :=
        List.get_map _
      obtain ⟨Af, Xf, yf, hE, hpA, hpX, hpy⟩ :=
        hplace f (by simpa using hf) j (by rw [hget]; exact hj)
      rw [hget] at hE
      refine ⟨Af, Xf, yf, hE, ?_, ?_, ?_⟩
      · intro rr cc
        have := hpA rr cc
        rwa [Nat.zero_add] at this
      · intro rr cc
        have := hpX rr cc
        rwa [Nat.zero_add] at this
      · intro rr cc
        have := hpy rr cc
        rwa [Nat.zero_add] at this

/-- The registry obtained from an empty side file: the 18 built-in entries. -/
def regBase : Registry := loadRegistry []

/-- A one-resistor netlist (single pin wired to node 7): its canonical graph
has two entities (the resistor and the node) joined by one edge. -/
def demoElems : List Element := [⟨0, .Resistor, [], [7]⟩]

def demoG : CGraph := netlist_as_graph demoElems

/-- C1, counterexample: for the one-resistor netlist, row 0 of sample 0 of
the omission encoder's feature tensor `X` sums to 0, not 1 — the claim that
every real row of `X` sums to exactly 1 (the hidden entity's row carrying
the "unknown" one-hot) is false for `encode_omitted_netlist`, which clears
the true-type bit without setting the unknown bit. -/
theorem C1_counterexample :
    ((encode_omitted_netlist regBase demoG zero3 zero3 zero2).map
      (fun t => rowSum (fun c => t.2.1 0 0 c) regBase.component_types.length)) =
      some 0 := by decide

/-- C1 (amended): in every sample of the masked encoder, every real row of
`X` and `y` sums to exactly 1 and every padded row is all-zero; in every
sample of the omission encoder, every real row of `X` other than the hidden
entity's own row sums to 1, the hidden entity's row `i` of `X[i]` is
all-zero (its true-type bit is cleared and no "unknown" bit is set), each
label row of `y` sums to 1, and padded rows of `X` are all-zero. -/
theorem C1_encoder_row_sums (r : Registry) (g : CGraph)
    {Am Xm ym Ao Xo : T3} {yo : T2}
    (hm : encode_masked_netlist r g zero3 zero3 zero3 = some (Am, Xm, ym))
    (ho : encode_omitted_netlist r g zero3 zero3 zero2 = some (Ao, Xo, yo)) :
    (∀ s rr, s < g.entities.length → rr < g.entities.length →
      rowSum (fun c => Xm s rr c) r.component_types.length = 1 ∧
      rowSum (fun c => ym s rr c) r.component_types.length = 1) ∧
    (∀ s rr c, g.entities.length ≤ rr → Xm s rr c = 0 ∧ ym s rr c = 0) ∧
    (∀ s rr, s < g.entities.length → rr < g.entities.length → rr ≠ s →
      rowSum (fun c => Xo s rr c) r.component_types.length = 1) ∧
    (∀ s c, s < g.entities.length → Xo s s c = 0) ∧
    (∀ s, s < g.entities.length →
      rowSum (fun c => yo s c) r.component_types.length = 1) ∧
    (∀ s rr c, g.entities.length ≤ rr → Xo s rr c = 0) := by
  obtain ⟨ts, htm, hlm, hAm, hXm, hym⟩ := encode_masked_spec r g hm
  obtain ⟨ts2, hto, hlo, hAo, hXo, hyo⟩ := encode_omitted_spec r g ho
  have hts : ts = ts2 := by
    rw [htm] at hto
    exact Option.some_inj.mp hto
  subst hts
  refine ⟨?_, ?_, ?_, ?_, ?_, ?_⟩
  · intro s rr hs hrr
    rw [← hlm] at hs hrr
    have hrrT := types_getD_lt htm rr hrr
    constructor
    · by_cases hrs : rr = s
      · have h0 : (0 : Nat) < r.component_types.length := by omega
        have hcongr : rowSum (fun c => Xm s rr c) r.component_types.length =
            rowSum (fun c => if c = 0 then 1 else 0) r.component_types.length :=
          rowSum_congr (fun c _ => by
            rw [hXm s rr c]
            split_ifs <;> first | rfl | omega)
        rw [hcongr, rowSum_onehot h0]
      · have hcongr : rowSum (fun c => Xm s rr c) r.component_types.length =
            rowSum (fun c => if c = ts.getD rr 0 then 1 else 0)
              r.component_types.length :=
          rowSum_congr (fun c _ => by
            rw [hXm s rr c]
            split_ifs <;> first | rfl | omega)
        rw [hcongr, rowSum_onehot hrrT]
    · have hcongr : rowSum (fun c => ym s rr c) r.component_types.length =
          rowSum (fun c => if c = ts.getD rr 0 then 1 else 0)
            r.component_types.length :=
        rowSum_congr (fun c _ => by
          rw [hym s rr c]
          split_ifs <;> first | rfl | omega)
      rw [hcongr, rowSum_onehot hrrT]
  · intro s rr c hrr
    rw [← hlm] at hrr
    constructor
    · rw [hXm s rr c]
      split_ifs <;> first | rfl | omega
    · rw [hym s rr c]
      split_ifs <;> first | rfl | omega
  · intro s rr hs hrr hrs
    rw [← hlo] at hs hrr
    have hrrT := types_getD_lt hto rr hrr
    have hcongr : rowSum (fun c => Xo s rr c) r.component_types.length =
        rowSum (fun c => if c = ts.getD rr 0 then 1 else 0)
          r.component_types.length :=
      rowSum_congr (fun c _ => by
        rw [hXo s rr c]
        split_ifs <;> first | rfl | omega)
    rw [hcongr, rowSum_onehot hrrT]
  · intro s c hs
    rw [← hlo] at hs
    rw [hXo s s c]
    split_ifs <;> first | rfl | omega
  · intro s hs
    rw [← hlo] at hs
    have hsT := types_getD_lt hto s hs
    have hcongr : rowSum (fun c => yo s c) r.component_types.length =
        rowSum (fun c => if c = ts.getD s 0 then 1 else 0)
          r.component_types.length :=
      rowSum_congr (fun c _ => by
        rw [hyo s c]
        split_ifs <;> first | rfl | omega)
    rw [hcongr, rowSum_onehot hsT]
  · intro s rr c hrr
    rw [← hlo] at hrr
    rw [hXo s rr c]
    split_ifs <;> first | rfl | omega

/-- C1's amended theorem applied at the one-resistor graph: sample 0, row 1
(a real, unmasked row) of masked `X` and omitted `X` both sum to 1. -/
theorem C1_encoder_row_sums_witness :
    ((encode_masked_netlist regBase demoG zero3 zero3 zero3).map
      (fun t => rowSum (fun c => t.2.1 0 1 c) regBase.component_types.length)) =
        some 1 ∧
    ((encode_omitted_netlist regBase demoG zero3 zero3 zero2).map
      (fun t => rowSum (fun c => t.2.1 0 1 c) regBase.component_types.length)) =
        some 1 := by
  have hmo : mapOption (get_component_type_index regBase) demoG.entities =
      some [1, 6] := by decide
  cases hm : encode_masked_netlist regBase demoG zero3 zero3 zero3 with
  | none =>
    rw [encode_masked_netlist, hmo] at hm
    exact absurd hm (by simp)
  | some tm =>
    cases ho : encode_omitted_netlist regBase demoG zero3 zero3 zero2 with
    | none =>
      rw [encode_omitted_netlist, hmo] at ho
      exact absurd ho (by simp)
    | some tOmit =>
      obtain ⟨Am, Xm, ym⟩ := tm
      obtain ⟨Ao, Xo, yo⟩ := tOmit
      have hc := C1_encoder_row_sums regBase demoG hm ho
      refine ⟨?_, ?_⟩
      · rw [Option.map_some']
        exact congrArg some (hc.1 0 1 (by decide) (by decide)).1
      · rw [Option.map_some']
        exact congrArg some (hc.2.2.1 0 1 (by decide) (by decide) (by decide))

/-- C2 (confirmed): for every valid netlist with n entities the omission
encoder produces n samples (the singleton-corpus batch has exactly n
samples), and in sample i row i and column i of `A[i]` are entirely zero
while every other in-range entry equals the canonical adjacency, and `y[i]`
is the single one-hot vector of entity i's true type index. -/
theorem C2_omission_encoding (r : Registry) (elements : List Element)
    {Ao Xo : T3} {yo : T2}
    (ho : encode_omitted_netlist r (netlist_as_graph elements) zero3 zero3 zero2 =
      some (Ao, Xo, yo)) :
    (∃ b, load_omitted_netlists r [elements] = some b ∧
      b.data_count = (netlist_as_graph elements).entities.length) ∧
    ∀ i, i < (netlist_as_graph elements).entities.length →
      (∀ cc, Ao i i cc = 0) ∧
      (∀ rr, Ao i rr i = 0) ∧
      (∀ rr cc, rr ≠ i → cc ≠ i → rr < (netlist_as_graph elements).n →
        cc < (netlist_as_graph elements).n →
        Ao i rr cc = (netlist_as_graph elements).adj rr cc) ∧
      (∃ ent t, (netlist_as_graph elements).entities.get? i = some ent ∧
        get_component_type_index r ent = some t ∧
        ∀ cc, yo i cc = if cc = t then 1 else 0) := by
  obtain ⟨ts, hto, hlo, hAo, hXo, hyo⟩ := encode_omitted_spec r (netlist_as_graph elements) ho
  constructor
  · obtain ⟨b, hb, hcount, _⟩ :=
      load_omitted_netlists_spec r [elements] (by simp)
        (by
          intro es hes
          rcases List.mem_singleton.mp hes with rfl
          rw [hto]
          rfl)
    refine ⟨b, hb, ?_⟩
    rw [hcount]
    show pySum [(netlist_as_graph elements).entities.length] = _
    rw [pySum_cons]
    simp [pySum]
  · intro i hi
    rw [← hlo] at hi
    refine ⟨?_, ?_, ?_, ?_⟩
    · intro cc
      rw [hAo i i cc]
      split_ifs <;> first | rfl | omega
    · intro rr
      rw [hAo i rr i]
      split_ifs <;> first | rfl | omega
    · intro rr cc hri hci hrn hcn
      rw [hAo i rr cc, if_pos ⟨hi, hri, hci, hrn, hcn⟩]
    · cases hti : ts.get? i with
      | none =>
        rw [List.get?_eq_none] at hti
        omega
      | some t =>
        have hb := mapOption_get? hto i
        rw [hti] at hb
        cases hei : (netlist_as_graph elements).entities.get? i with
        | none => rw [hei] at hb; exact absurd hb.symm (by simp)
        | some ent =>
          rw [hei] at hb
          simp only [Option.some_bind] at hb
          refine ⟨ent, t, rfl, hb.symm, ?_⟩
          intro cc
          rw [hyo i cc, getD_of_get? hti]
          split_ifs <;> first | rfl | omega

/-- C2's theorem applied at the one-resistor netlist: the loader emits 2
samples, row 0 and column 0 of `A[0]` are zero, and `y[0]` carries a 1. -/
theorem C2_omission_encoding_witness :
    ((encode_omitted_netlist regBase demoG zero3 zero3 zero2).map
      (fun t => (t.1 0 0 1, t.1 0 1 0, t.2.2 0 1))) = some (0, 0, 1) ∧
    ((load_omitted_netlists regBase [demoElems]).map
      (fun b => b.data_count)) = some 2 := by
  have hmo : mapOption (get_component_type_index regBase) demoG.entities =
      some [1, 6] := by decide
  cases ho : encode_omitted_netlist regBase demoG zero3 zero3 zero2 with
  | none =>
    rw [encode_omitted_netlist, hmo] at ho
    exact absurd ho (by simp)
  | some tOmit =>
    obtain ⟨Ao, Xo, yo⟩ := tOmit
    have hc := C2_omission_encoding regBase demoElems ho
    obtain ⟨⟨b, hb, hcount⟩, hper⟩ := hc
    obtain ⟨hrow, hcol, _, hy⟩ := hper 0 (by decide)
    constructor
    · rw [Option.map_some']
      refine congrArg some ?_
      obtain ⟨ent, t, hent, hgt, hyeq⟩ := hy
      have hent' : ent = Entity.comp ⟨0, .Resistor, [], [7]⟩ := by
        have hd : (netlist_as_graph demoElems).entities.get? 0 =
            some (Entity.comp ⟨0, .Resistor, [], [7]⟩) := by decide
        rw [hd] at hent
        exact (Option.some_inj.mp hent).symm
      have ht' : t = 1 := by
        rw [hent'] at hgt
        have hd : get_component_type_index regBase
            (Entity.comp ⟨0, .Resistor, [], [7]⟩) = some 1 := by decide
        rw [hd] at hgt
        exact Option.some_inj.mp hgt.symm
      show (Ao 0 0 1, Ao 0 1 0, yo 0 1) = (0, 0, 1)
      rw [hrow 1, hcol 1, hyeq 1, ht']
      simp
    · rw [hb, Option.map_some']
      refine congrArg some ?_
      rw [hcount]
      decide

/-- C3 (confirmed): for every valid netlist with n entities the masked
encoder produces n samples; in sample i, `X[i]` agrees with the
ground-truth `y[i]` on every row except row i, row i of `X[i]` is the
"unknown" one-hot, `A[i]` is the canonical adjacency zero-padded, and
splicing row i of `y[i]` back into `X[i]` reproduces the unmasked feature
matrix `y[i]`. -/
theorem C3_masked_encoding (r : Registry) (elements : List Element)
    {Am Xm ym : T3}
    (hm : encode_masked_netlist r (netlist_as_graph elements) zero3 zero3 zero3 =
      some (Am, Xm, ym)) :
    (∃ b, load_masked_netlists r [elements] = some b ∧
      b.data_count = (netlist_as_graph elements).entities.length) ∧
    ∀ i, i < (netlist_as_graph elements).entities.length →
      (∀ rr cc, rr ≠ i → Xm i rr cc = ym i rr cc) ∧
      (∀ cc, Xm i i cc = if cc = 0 then 1 else 0) ∧
      (∀ rr cc, rr < (netlist_as_graph elements).n →
        cc < (netlist_as_graph elements).n →
        Am i rr cc = (netlist_as_graph elements).adj rr cc) ∧
      (∀ rr cc, (netlist_as_graph elements).n ≤ rr ∨
        (netlist_as_graph elements).n ≤ cc → Am i rr cc = 0) ∧
      (∀ rr cc, (if rr = i then ym i rr cc else Xm i rr cc) = ym i rr cc) := by
  obtain ⟨ts, htm, hlm, hAm, hXm, hym⟩ := encode_masked_spec r (netlist_as_graph elements) hm
  constructor
  · obtain ⟨b, hb, hcount, _⟩ :=
      load_masked_netlists_spec r [elements] (by simp)
        (by
          intro es hes
          rcases List.mem_singleton.mp hes with rfl
          rw [htm]
          rfl)
    refine ⟨b, hb, ?_⟩
    rw [hcount]
    show pySum [(netlist_as_graph elements).entities.length] = _
    rw [pySum_cons]
    simp [pySum]
  · intro i hi
    rw [← hlm] at hi
    refine ⟨?_, ?_, ?_, ?_, ?_⟩
    · intro rr cc hri
      rw [hXm i rr cc, hym i rr cc]
      split_ifs <;> first | rfl | omega
    · intro cc
      rw [hXm i i cc]
      split_ifs <;> first | rfl | omega
    · intro rr cc hrn hcn
      rw [hAm i rr cc, if_pos ⟨hi, hrn, hcn⟩]
    · intro rr cc hout
      rw [hAm i rr cc]
      split_ifs <;> first | rfl | omega
    · intro rr cc
      by_cases hri : rr = i
      · rw [if_pos hri]
      · rw [if_neg hri, hXm i rr cc, hym i rr cc]
        split_ifs <;> first | rfl | omega

/-- C3's theorem applied at the one-resistor netlist: the loader emits 2
samples; in sample 0 the masked row is the unknown one-hot, an unmasked row
agrees with `y`, and `A[0]` holds the adjacency. -/
theorem C3_masked_encoding_witness :
    ((encode_masked_netlist regBase demoG zero3 zero3 zero3).map
      (fun t => (t.2.1 0 0 0, t.2.1 0 0 1, t.1 0 0 1))) = some (1, 0, 1) ∧
    ((load_masked_netlists regBase [demoElems]).map
      (fun b => b.data_count)) = some 2 := by
  have hmo : mapOption (get_component_type_index regBase) demoG.entities =
      some [1, 6] := by decide
  cases hm : encode_masked_netlist regBase demoG zero3 zero3 zero3 with
  | none =>
    rw [encode_masked_netlist, hmo] at hm
    exact absurd hm (by simp)
  | some tm =>
    obtain ⟨Am, Xm, ym⟩ := tm
    have hc := C3_masked_encoding regBase demoElems hm
    obtain ⟨⟨b, hb, hcount⟩, hper⟩ := hc
    obtain ⟨_, hdiag, hadj, _, _⟩ := hper 0 (by decide)
    constructor
    · rw [Option.map_some']
      refine congrArg some ?_
      show (Xm 0 0 0, Xm 0 0 1, Am 0 0 1) = (1, 0, 1)
      rw [hdiag 0, hdiag 1, hadj 0 1 (by decide) (by decide)]
      have hd : (netlist_as_graph demoElems).adj 0 1 = 1 := by decide
      rw [hd]
      simp
    · rw [hb, Option.map_some']
      refine congrArg some ?_
      rw [hcount]
      decide

/-- C9 (confirmed): for every non-empty corpus whose type lookups succeed,
both batched loaders produce batches whose sample count is the sum of the
per-file entity counts, whose padding width is the maximum entity count
across the corpus, whose samples beyond the batch are zero, and whose
sample at `offset(f) + j` (file offsets in file order, entity order within
a file) is exactly the single-file encoder's sample `j`, with rows beyond
the file's entity count zero-padded. -/
theorem C9_batch_layout (r : Registry) (files : List (List Element))
    (hne : files ≠ [])
    (hok : ∀ es ∈ files,
      (mapOption (get_component_type_index r) (netlist_as_graph es).entities).isSome) :
    ∃ bm bo,
      load_masked_netlists r files = some bm ∧
      load_omitted_netlists r files = some bo ∧
      bm.data_count = (countsOf (files.map netlist_as_graph)).sum ∧
      bo.data_count = bm.data_count ∧
      bm.max_components ∈ countsOf (files.map netlist_as_graph) ∧
      (∀ c ∈ countsOf (files.map netlist_as_graph), c ≤ bm.max_components) ∧
      bo.max_components = bm.max_components ∧
      ZeroFrom3 bm.A bm.data_count ∧ ZeroFrom3 bm.X bm.data_count ∧
      ZeroFrom3 bm.y bm.data_count ∧ ZeroFrom3 bo.A bo.data_count ∧
      ZeroFrom3 bo.X bo.data_count ∧ ZeroFrom2 bo.y bo.data_count ∧
      (∀ f (hf : f < files.length) j,
        j < (netlist_as_graph (files.get ⟨f, hf⟩)).entities.length →
        ∃ Af Xf yf Ag Xg yg,
          encode_masked_netlist r (netlist_as_graph (files.get ⟨f, hf⟩))
            zero3 zero3 zero3 = some (Af, Xf, yf) ∧
          encode_omitted_netlist r (netlist_as_graph (files.get ⟨f, hf⟩))
            zero3 zero3 zero2 = some (Ag, Xg, yg) ∧
          (∀ rr cc,
            bm.A (pySum ((countsOf (files.map netlist_as_graph)).take f) + j) rr cc =
              Af j rr cc) ∧
          (∀ rr cc,
            bm.X (pySum ((countsOf (files.map netlist_as_graph)).take f) + j) rr cc =
              Xf j rr cc) ∧
          (∀ rr cc,
            bm.y (pySum ((countsOf (files.map netlist_as_graph)).take f) + j) rr cc =
              yf j rr cc) ∧
          (∀ rr cc,
            bo.A (pySum ((countsOf (files.map netlist_as_graph)).take f) + j) rr cc =
              Ag j rr cc) ∧
          (∀ rr cc,
            bo.X (pySum ((countsOf (files.map netlist_as_graph)).take f) + j) rr cc =
              Xg j rr cc) ∧
          (∀ cc,
            bo.y (pySum ((countsOf (files.map netlist_as_graph)).take f) + j) cc =
              yg j cc) ∧
          (∀ rr cc, (netlist_as_graph (files.get ⟨f, hf⟩)).entities.length ≤ rr →
            bm.X (pySum ((countsOf (files.map netlist_as_graph)).take f) + j) rr cc =
              0)) := by
  obtain ⟨bm, hbm, hsm, hmaxm, hzmA, hzmX, hzmy, hplm⟩ :=
    load_masked_netlists_spec r files hne hok
  obtain ⟨bo, hbo, hso, hmaxo, hzoA, hzoX, hzoy, hplo⟩ :=
    load_omitted_netlists_spec r files hne hok
  have hmaxeq : bo.max_components = bm.max_components := by
    rw [hmaxm] at hmaxo
    exact Option.some_inj.mp hmaxo.symm
  obtain ⟨hmem, hub⟩ := pyMax_spec hmaxm
  refine ⟨bm, bo, hbm, hbo, by rw [hsm, pySum_eq_sum], by rw [hso, hsm], hmem, hub,
    hmaxeq, hzmA, hzmX, hzmy, hzoA, hzoX, hzoy, ?_⟩
  intro f hf j hj
  obtain ⟨Af, Xf, yf, hEf, hpAm, hpXm, hpym⟩ := hplm f hf j hj
  obtain ⟨Ag, Xg, yg, hEg, hpAo, hpXo, hpyo⟩ := hplo f hf j hj
  refine ⟨Af, Xf, yf, Ag, Xg, yg, hEf, hEg, hpAm, hpXm, hpym, hpAo, hpXo, hpyo, ?_⟩
  intro rr cc hrr
  rw [hpXm rr cc]
  obtain ⟨ts, htf, hlf, _, hXf, _⟩ :=
    encode_masked_spec r (netlist_as_graph (files.get ⟨f, hf⟩)) hEf
  rw [hXf j rr cc]
  rw [← hlf] at hrr
  split_ifs <;> first | rfl | omega

/-- A second demonstration netlist: a voltage source with two pins (nodes 3
and 4); its canonical graph has three entities. -/
def demoElems2 : List Element := [⟨1, .VoltageSource, [], [3, 4]⟩]

/-- C9's theorem applied at the two-file corpus {one resistor, one voltage
source}: 2 + 3 = 5 samples, padded to the larger file's 3 entities, in both
loaders. -/
theorem C9_batch_layout_witness :
    ((load_masked_netlists regBase [demoElems, demoElems2]).map
      (fun b => (b.data_count, b.max_components))) = some (5, 3) ∧
    ((load_omitted_netlists regBase [demoElems, demoElems2]).map
      (fun b => (b.data_count, b.max_components))) = some (5, 3) := by
  obtain ⟨bm, bo, hbm, hbo, hsum, hsumo, hmem, hub, hmaxeq, _⟩ :=
    C9_batch_layout regBase [demoElems, demoElems2] (by simp)
      (by
        intro es hes
        rcases List.mem_cons.mp hes with rfl | hes2
        · decide
        rcases List.mem_cons.mp hes2 with rfl | hes3
        · decide
        exact absurd hes3 (by simp))
  have hcounts : countsOf ([demoElems, demoElems2].map netlist_as_graph) = [2, 3] := by
    decide
  have hmax : bm.max_components = 3 := by
    rw [hcounts] at hmem hub
    have h3 := hub 3 (by simp)
    rcases List.mem_cons.mp hmem with h | h
    · omega
    rcases List.mem_cons.mp h with h | h
    · omega
    · exact absurd h (by simp)
  have hdc : bm.data_count = 5 := by
    rw [hsum, hcounts]
    rfl
  constructor
  · rw [hbm, Option.map_some']
    refine congrArg some ?_
    rw [hdc, hmax]
  · rw [hbo, Option.map_some']
    refine congrArg some ?_
    rw [hsumo, hdc, hmaxeq, hmax]

/-! ### Invariants of the graph builder -/

/-- Index `i` of the entity list holds a component. -/
def isCompAt (cl : List Entity) (i : Nat) : Prop :=
  ∃ e, cl.get? i = some (Entity.comp e)

/-- Index `i` of the entity list holds an electrical node. -/
def isNodeAt (cl : List Entity) (i : Nat) : Prop :=
  ∃ m, cl.get? i = some (Entity.node m)

/-- Exactly one of positions `i`, `j` holds a component and the other a
node. -/
def oppKinds (cl : List Entity) (i j : Nat) : Prop :=
  (isCompAt cl i ∧ isNodeAt cl j) ∨ (isNodeAt cl i ∧ isCompAt cl j)

/-- Invariant of the dict-of-lists under construction: keys are distinct
in-range indices and every recorded neighbor pair joins a component index
with a node index. -/
def AdjInv (cl : List Entity) (a : AdjList) : Prop :=
  (a.map Prod.fst).Nodup ∧
    ∀ p ∈ a, p.1 < cl.length ∧ ∀ j ∈ p.2, oppKinds cl p.1 j

theorem idxOf_get? {l : List Entity} {x : Entity} (h : x ∈ l) :
    l.get? (idxOf l x) = some x := by
  induction l with
  | nil => cases h
  | cons y ys ih =>
    by_cases hxy : y = x
    · simp [idxOf, hxy]
    · have hx : x ∈ ys := by
        rcases List.mem_cons.mp h with h1 | h1
        · exact absurd h1.symm hxy
        · exact h1
      show (y :: ys).get? (if y = x then 0 else idxOf ys x + 1) = some x
      rw [if_neg hxy, List.get?_cons_succ]
      exact ih hx

theorem addEntity_eq_append (cl : List Entity) (x : Entity) :
    ∃ t, addEntity cl x = cl ++ t := by
  unfold addEntity
  split_ifs
  · exact ⟨[], (List.append_nil cl).symm⟩
  · exact ⟨[x], rfl⟩

theorem mem_addEntity_self (cl : List Entity) (x : Entity) : x ∈ addEntity cl x := by
  unfold addEntity
  split_ifs with h
  · exact h
  · simp

theorem mem_addEntity_of_mem {cl : List Entity} {y : Entity} (x : Entity)
    (h : y ∈ cl) : y ∈ addEntity cl x := by
  unfold addEntity
  split_ifs
  · exact h
  · exact List.mem_append_left _ h

theorem foldAdd_eq_append (cl : List Entity) (ns : List Nat) :
    ∃ t, ns.foldl (fun cl n => addEntity cl (.node n)) cl = cl ++ t := by
  induction ns generalizing cl with
  | nil => exact ⟨[], (List.append_nil cl).symm⟩
  | cons n ns ih =>
    obtain ⟨t1, h1⟩ := addEntity_eq_append cl (.node n)
    obtain ⟨t2, h2⟩ := ih (addEntity cl (.node n))
    exact ⟨t1 ++ t2, by rw [List.foldl_cons, h2, h1, List.append_assoc]⟩

theorem mem_foldAdd_of_mem {cl : List Entity} {y : Entity} (ns : List Nat)
    (h : y ∈ cl) : y ∈ ns.foldl (fun cl n => addEntity cl (.node n)) cl := by
  induction ns generalizing cl with
  | nil => exact h
  | cons n ns ih => exact ih (mem_addEntity_of_mem _ h)

theorem node_mem_foldAdd (cl : List Entity) {ns : List Nat} {n : Nat}
    (h : n ∈ ns) : Entity.node n ∈ ns.foldl (fun cl n => addEntity cl (.node n)) cl := by
  induction ns generalizing cl with
  | nil => cases h
  | cons m ms ih =>
    rcases List.mem_cons.mp h with h1 | h1
    · subst h1
      exact mem_foldAdd_of_mem ms (mem_addEntity_self cl _)
    · exact ih _ h1

theorem isCompAt_append {cl t : List Entity} {i : Nat} (h : isCompAt cl i) :
    isCompAt (cl ++ t) i := by
  obtain ⟨e, he⟩ := h
  exact ⟨e, by rw [List.get?_append (get?_lt_length he)]; exact he⟩

theorem isNodeAt_append {cl t : List Entity} {i : Nat} (h : isNodeAt cl i) :
    isNodeAt (cl ++ t) i := by
  obtain ⟨m, hm⟩ := h
  exact ⟨m, by rw [List.get?_append (get?_lt_length hm)]; exact hm⟩

theorem oppKinds_append {cl t : List Entity} {i j : Nat} (h : oppKinds cl i j) :
    oppKinds (cl ++ t) i j := by
  rcases h with ⟨h1, h2⟩ | ⟨h1, h2⟩
  · exact Or.inl ⟨isCompAt_append h1, isNodeAt_append h2⟩
  · exact Or.inr ⟨isNodeAt_append h1, isCompAt_append h2⟩

theorem appendAt_keys (a : AdjList) (k : Nat) (js : List Nat) :
    (appendAt a k js).map Prod.fst = a.map Prod.fst := by
  unfold appendAt
  rw [List.map_map]
  apply List.map_congr_left
  intro p _
  by_cases hk : p.1 = k
  · simp [hk]
  · simp [hk]

theorem mem_appendAt {a : AdjList} {k : Nat} {js : List Nat} {p' : Nat × List Nat}
    (h : p' ∈ appendAt a k js) :
    ∃ p ∈ a, p'.1 = p.1 ∧ (p'.2 = p.2 ∨ (p.1 = k ∧ p'.2 = p.2 ++ js)) := by
  unfold appendAt at h
  obtain ⟨p, hp, heq⟩ := List.mem_map.mp h
  by_cases hk : p.1 = k
  · rw [if_pos hk] at heq
    exact ⟨p, hp, by rw [← heq], Or.inr ⟨hk, by rw [← heq]⟩⟩
  · rw [if_neg hk] at heq
    exact ⟨p, hp, by rw [← heq], Or.inl (by rw [← heq])⟩

theorem adjInv_append_entities {cl t : List Entity} {a : AdjList}
    (h : AdjInv cl a) : AdjInv (cl ++ t) a := by
  refine ⟨h.1, ?_⟩
  intro p hp
  refine ⟨lt_of_lt_of_le (h.2 p hp).1 (by simp), ?_⟩
  intro j hj
  exact oppKinds_append ((h.2 p hp).2 j hj)

theorem adjInv_addKey {cl : List Entity} {a : AdjList} {k : Nat}
    (h : AdjInv cl a) (hk : ¬ hasKey a k) (hlt : k < cl.length) :
    AdjInv cl (a ++ [(k, [])]) := by
  have hknot : k ∉ a.map Prod.fst := by
    intro hmem
    obtain ⟨p, hp, hpk⟩ := List.mem_map.mp hmem
    exact hk (List.any_eq_true.mpr ⟨p, hp, by simp [hpk]⟩)
  refine ⟨?_, ?_⟩
  · rw [List.map_append]
    simp only [List.map_cons, List.map_nil]
    rw [List.nodup_append]
    refine ⟨h.1, List.nodup_singleton k, ?_⟩
    intro x hx hxk
    rw [List.mem_singleton.mp hxk] at hx
    exact hknot hx
  · intro p hp
    rcases List.mem_append.mp hp with hp1 | hp1
    · exact h.2 p hp1
    · rcases List.mem_singleton.mp hp1 with rfl
      exact ⟨hlt, by simp⟩

theorem adjInv_appendAt {cl : List Entity} {a : AdjList} {k : Nat} {js : List Nat}
    (h : AdjInv cl a) (hjs : ∀ j ∈ js, oppKinds cl k j) :
    AdjInv cl (appendAt a k js) := by
  refine ⟨by rw [appendAt_keys]; exact h.1, ?_⟩
  intro p' hp'
  obtain ⟨p, hp, hfst, hsnd⟩ := mem_appendAt hp'
  refine ⟨hfst ▸ (h.2 p hp).1, ?_⟩
  intro j hj
  rcases hsnd with hsnd | ⟨hpk, hsnd⟩
  · exact hfst ▸ (h.2 p hp).2 j (hsnd ▸ hj)
  · rw [hsnd] at hj
    rcases List.mem_append.mp hj with hj1 | hj1
    · exact hfst ▸ (h.2 p hp).2 j hj1
    · rw [hfst, hpk]
      exact hjs j hj1

theorem adjInv_nodeFold {cl : List Entity} {eid : Nat} (hC : isCompAt cl eid) :
    ∀ (nids : List Nat) (a : AdjList), AdjInv cl a →
      (∀ nid ∈ nids, isNodeAt cl nid ∧ nid < cl.length) →
      AdjInv cl (nids.foldl (fun a nid =>
        appendAt (if hasKey a nid then a else a ++ [(nid, [])]) nid [eid]) a) := by
  intro nids
  induction nids with
  | nil => intro a h _; exact h
  | cons nid nids ih =>
    intro a h hn
    have hthis := hn nid (List.mem_cons_self nid nids)
    have hstep : AdjInv cl (appendAt
        (if hasKey a nid then a else a ++ [(nid, [])]) nid [eid]) := by
      have hinner : AdjInv cl (if hasKey a nid then a else a ++ [(nid, [])]) := by
        split_ifs with hk
        · exact h
        · exact adjInv_addKey h hk hthis.2
      refine adjInv_appendAt hinner ?_
      intro j hj
      rcases List.mem_singleton.mp hj with rfl
      exact Or.inr ⟨hthis.1, hC⟩
    exact ih _ hstep (fun m hm => hn m (List.mem_cons_of_mem nid hm))

theorem adjInv_graphStep {acc : GraphAcc}
    (h : AdjInv acc.component_list acc.adjL) (e : Element) :
    AdjInv (graphStep acc e).component_list (graphStep acc e).adjL := by
  obtain ⟨t1, ht1⟩ := addEntity_eq_append acc.component_list (.comp e)
  obtain ⟨t2, ht2⟩ :=
    foldAdd_eq_append (addEntity acc.component_list (.comp e)) e.pins
  have hcl2app : e.pins.foldl (fun cl n => addEntity cl (.node n))
      (addEntity acc.component_list (.comp e)) =
      acc.component_list ++ (t1 ++ t2) := by
    rw [ht2, ht1, List.append_assoc]
  set cl2 := e.pins.foldl (fun cl n => addEntity cl (.node n))
    (addEntity acc.component_list (.comp e)) with hcl2
  have hinv2 : AdjInv cl2 acc.adjL := by
    rw [hcl2app]
    exact adjInv_append_entities h
  have hcompmem : Entity.comp e ∈ cl2 :=
    mem_foldAdd_of_mem e.pins (mem_addEntity_self acc.component_list (.comp e))
  have heid := idxOf_get? hcompmem
  have heidC : isCompAt cl2 (idxOf cl2 (.comp e)) := ⟨e, heid⟩
  have heidlt : idxOf cl2 (.comp e) < cl2.length := get?_lt_length heid
  have hinvA1 : AdjInv cl2 (if hasKey acc.adjL (idxOf cl2 (.comp e)) then acc.adjL
      else acc.adjL ++ [(idxOf cl2 (.comp e), [])]) := by
    split_ifs with hk
    · exact hinv2
    · exact adjInv_addKey hinv2 hk heidlt
  have hnids : ∀ nid ∈ e.pins.map (fun n => idxOf cl2 (.node n)),
      isNodeAt cl2 nid ∧ nid < cl2.length := by
    intro nid hnid
    obtain ⟨n, hn, rfl⟩ := List.mem_map.mp hnid
    have hmem : Entity.node n ∈ cl2 := node_mem_foldAdd _ hn
    have hget := idxOf_get? hmem
    exact ⟨⟨n, hget⟩, get?_lt_length hget⟩
  have hinvA2 : AdjInv cl2 (appendAt
      (if hasKey acc.adjL (idxOf cl2 (.comp e)) then acc.adjL
        else acc.adjL ++ [(idxOf cl2 (.comp e), [])])
      (idxOf cl2 (.comp e)) (e.pins.map (fun n => idxOf cl2 (.node n)))) := by
    refine adjInv_appendAt hinvA1 ?_
    intro j hj
    exact Or.inl ⟨heidC, (hnids j hj).1⟩
  exact adjInv_nodeFold heidC _ _ hinvA2 hnids

theorem adjInv_netlist (elements : List Element) :
    AdjInv (elements.foldl graphStep ⟨[], []⟩).component_list
      (elements.foldl graphStep ⟨[], []⟩).adjL := by
  suffices h : ∀ (es : List Element) (acc : GraphAcc),
      AdjInv acc.component_list acc.adjL →
      AdjInv (es.foldl graphStep acc).component_list
        (es.foldl graphStep acc).adjL by
    exact h elements ⟨[], []⟩ ⟨by simp, by simp⟩
  intro es
  induction es with
  | nil => intro acc h; exact h
  | cons e es ih =>
    intro acc h
    exact ih (graphStep acc e) (adjInv_graphStep h e)

theorem adjLookup_mem {a : AdjList} {k j : Nat} (h : j ∈ adjLookup a k) :
    ∃ p ∈ a, p.1 = k ∧ j ∈ p.2 := by
  unfold adjLookup at h
  cases hf : a.find? (fun p => p.1 = k) with
  | none => rw [hf] at h; simp at h
  | some p =>
    rw [hf] at h
    simp only [Option.map_some', Option.getD_some] at h
    have hp := List.mem_of_find?_eq_some hf
    have hk := List.find?_some hf
    exact ⟨p, hp, by simpa using hk, h⟩

/-- C4 (confirmed): for every valid netlist the adjacency matrix of
`netlist_as_graph` is symmetric, has a zero diagonal, and is strictly
bipartite — an entry is 1 only between a component index and a node
index. -/
theorem C4_adjacency_bipartite (elements : List Element) (i j : Nat) :
    (netlist_as_graph elements).adj i j = (netlist_as_graph elements).adj j i ∧
    (netlist_as_graph elements).adj i i = 0 ∧
    ((netlist_as_graph elements).adj i j = 1 →
      oppKinds (netlist_as_graph elements).entities i j) := by
  have hinv := adjInv_netlist elements
  set acc := elements.foldl graphStep ⟨[], []⟩ with hacc
  have hopp : ∀ k l : Nat, k ∈ adjLookup acc.adjL l →
      oppKinds acc.component_list l k := by
    intro k l hk
    obtain ⟨p, hp, hpk, hpj⟩ := adjLookup_mem hk
    have := (hinv.2 p hp).2 k hpj
    rwa [hpk] at this
  refine ⟨?_, ?_, ?_⟩
  · show (if j ∈ adjLookup acc.adjL i ∨ i ∈ adjLookup acc.adjL j then 1 else 0) =
      (if i ∈ adjLookup acc.adjL j ∨ j ∈ adjLookup acc.adjL i then 1 else 0)
    by_cases h : j ∈ adjLookup acc.adjL i ∨ i ∈ adjLookup acc.adjL j
    · rw [if_pos h, if_pos h.symm]
    · rw [if_neg h, if_neg (fun hh => h hh.symm)]
  · show (if i ∈ adjLookup acc.adjL i ∨ i ∈ adjLookup acc.adjL i then 1 else 0) = 0
    have hno : i ∉ adjLookup acc.adjL i := by
      intro hmem
      rcases hopp i i hmem with ⟨⟨e, he⟩, ⟨m, hm⟩⟩ | ⟨⟨m, hm⟩, ⟨e, he⟩⟩ <;>
        · rw [he] at hm
          exact absurd (Option.some_inj.mp hm) (by simp)
    rw [if_neg (fun hh => hno (hh.elim id id))]
  · intro h1
    show oppKinds acc.component_list i j
    by_cases h : j ∈ adjLookup acc.adjL i ∨ i ∈ adjLookup acc.adjL j
    · rcases h with h | h
      · rcases hopp j i h with hcase | hcase
        · exact Or.inl hcase
        · exact Or.inr hcase
      · rcases hopp i j h with ⟨hc, hn⟩ | ⟨hn, hc⟩
        · exact Or.inr ⟨hn, hc⟩
        · exact Or.inl ⟨hc, hn⟩
    · have : (netlist_as_graph elements).adj i j = 0 := by
        show (if j ∈ adjLookup acc.adjL i ∨ i ∈ adjLookup acc.adjL j then 1 else 0) = 0
        rw [if_neg h]
      rw [this] at h1
      cases h1

/-- C4's theorem applied at the one-resistor graph, its bipartite conjunct
discharged at the edge (0, 1). -/
theorem C4_adjacency_bipartite_witness :
    (netlist_as_graph demoElems).adj 0 1 = (netlist_as_graph demoElems).adj 1 0 ∧
    (netlist_as_graph demoElems).adj 0 0 = 0 ∧
    oppKinds (netlist_as_graph demoElems).entities 0 1 := by
  obtain ⟨hsym, hdiag, hbip⟩ := C4_adjacency_bipartite demoElems 0 1
  exact ⟨hsym, hdiag, hbip (by decide)⟩

/-- C10 (confirmed): every adjacency entry of `netlist_as_graph` is 0 or 1
(`nx.from_dict_of_lists` builds a simple graph, collapsing the duplicate
neighbor entries the loop records), and in particular a component with two
pins on the same node (here node 5 twice) yields an entry of exactly 1. -/
theorem C10_adjacency_binary (elements : List Element) (i j : Nat) :
    ((netlist_as_graph elements).adj i j = 0 ∨
      (netlist_as_graph elements).adj i j = 1) ∧
    (netlist_as_graph [⟨0, .Resistor, [], [5, 5]⟩]).adj 0 1 = 1 := by
  constructor
  · set acc := elements.foldl graphStep ⟨[], []⟩ with hacc
    show (if j ∈ adjLookup acc.adjL i ∨ i ∈ adjLookup acc.adjL j then 1 else 0) = 0 ∨
      (if j ∈ adjLookup acc.adjL i ∨ i ∈ adjLookup acc.adjL j then 1 else 0) = 1
    split_ifs
    · exact Or.inr rfl
    · exact Or.inl rfl
  · decide

/-- The adjacency matrix dimension (number of dict keys) never exceeds the
entity count: keys are distinct indices into the entity list. -/
theorem graph_n_le_entities (elements : List Element) :
    (netlist_as_graph elements).n ≤ (netlist_as_graph elements).entities.length := by
  have hinv := adjInv_netlist elements
  set acc := elements.foldl graphStep ⟨[], []⟩ with hacc
  show acc.adjL.length ≤ acc.component_list.length
  have hkeys : (acc.adjL.map Prod.fst).Nodup := hinv.1
  have hbound : ∀ k ∈ acc.adjL.map Prod.fst, k < acc.component_list.length := by
    intro k hk
    obtain ⟨p, hp, rfl⟩ := List.mem_map.mp hk
    exact (hinv.2 p hp).1
  calc acc.adjL.length = (acc.adjL.map Prod.fst).length := (List.length_map _ _).symm
    _ = (acc.adjL.map Prod.fst).toFinset.card :=
      (List.toFinset_card_of_nodup hkeys).symm
    _ ≤ (Finset.range acc.component_list.length).card :=
      Finset.card_le_card (fun k hk =>
        Finset.mem_range.mpr (hbound k (List.mem_toFinset.mp hk)))
    _ = acc.component_list.length := Finset.card_range _

theorem setOnes_preserve_one {x : T2} {pairs : List (Nat × Nat)} {a b : Nat}
    (h : x a b = 1) : setOnes x pairs a b = 1 := by
  induction pairs generalizing x with
  | nil => exact h
  | cons p ps ih =>
    refine ih ?_
    show (if a = p.1 ∧ b = p.2 then 1 else x a b) = 1
    split_ifs
    · rfl
    · exact h

theorem setOnes_eq_one_of_mem {x : T2} {pairs : List (Nat × Nat)}
    {p : Nat × Nat} (hp : p ∈ pairs) : setOnes x pairs p.1 p.2 = 1 := by
  induction pairs generalizing x with
  | nil => cases hp
  | cons q qs ih =>
    rcases List.mem_cons.mp hp with rfl | hp1
    · have hx : upd2 x p.1 p.2 1 p.1 p.2 = 1 := by
        show (if p.1 = p.1 ∧ p.2 = p.2 then 1 else x p.1 p.2) = 1
        rw [if_pos ⟨rfl, rfl⟩]
      show setOnes (upd2 x p.1 p.2 1) qs p.1 p.2 = 1
      exact setOnes_preserve_one hx
    · exact ih hp1

/-- C5, counterexample: for the one-resistor graph with `omitted_idx = 0`,
the first action candidate is the reused slot 0 (its is-action bit is 1),
yet its adjacency row is not zero: `a[0][1] = 1`.  The claim that every
action-candidate entity's adjacency row and column are zero is false —
`load_graph` copies the original adjacency block without disconnecting the
omitted entity. -/
theorem C5_counterexample :
    ((load_graph regBase demoG.entities demoG.n demoG.adj (some 0)).map
      (fun lg => (lg.total_components, lg.x 0 (action_index regBase), lg.a 0 1))) =
      some (19, 1, 1) := by decide

/-- C5 (amended): with k real entities the prototype encoder returns
`k + |enumeration|` slots without omission and `k + |enumeration| - 1` with
omission (the omitted entity's slot reused as the first action candidate);
the adjacency is the original block zero-padded, so every appended action
slot (index ≥ k) has zero adjacency row and column; every appended action
slot and the reused slot carry the is-action bit — but the reused slot
keeps the omitted entity's original adjacency row and column. -/
theorem C5_prototype_load_graph (r : Registry) (elements : List Element)
    (types : List Nat) (oi : Nat)
    (hts : mapOption (get_component_type_index r)
      (netlist_as_graph elements).entities = some types)
    (hoi : oi < (netlist_as_graph elements).entities.length) :
    ∃ lgN lgO,
      load_graph r (netlist_as_graph elements).entities
        (netlist_as_graph elements).n (netlist_as_graph elements).adj none =
        some lgN ∧
      load_graph r (netlist_as_graph elements).entities
        (netlist_as_graph elements).n (netlist_as_graph elements).adj (some oi) =
        some lgO ∧
      lgN.total_components =
        (netlist_as_graph elements).entities.length + r.component_types.length ∧
      lgO.total_components =
        (netlist_as_graph elements).entities.length + r.component_types.length - 1 ∧
      (∀ i j, lgN.a i j = if i < (netlist_as_graph elements).n ∧
        j < (netlist_as_graph elements).n
        then (netlist_as_graph elements).adj i j else 0) ∧
      (∀ i j, lgO.a i j = if i < (netlist_as_graph elements).n ∧
        j < (netlist_as_graph elements).n
        then (netlist_as_graph elements).adj i j else 0) ∧
      (∀ k c, (netlist_as_graph elements).entities.length ≤ k →
        lgN.a k c = 0 ∧ lgN.a c k = 0 ∧ lgO.a k c = 0 ∧ lgO.a c k = 0) ∧
      (∀ k, (netlist_as_graph elements).entities.length ≤ k →
        k < lgN.total_components → lgN.x k (action_index r) = 1) ∧
      (∀ k, (netlist_as_graph elements).entities.length ≤ k →
        k < lgO.total_components → lgO.x k (action_index r) = 1) ∧
      lgO.x oi (action_index r) = 1 := by
  have hlen : types.length = (netlist_as_graph elements).entities.length :=
    mapOption_length hts
  have hoity : oi < types.length := by omega
  have hT0 : 0 < r.component_types.length := by
    have := types_getD_lt hts oi hoity
    omega
  obtain ⟨omT, hget⟩ : ∃ t, types.get? oi = some t := by
    cases hg : types.get? oi with
    | none =>
      rw [List.get?_eq_none] at hg
      omega
    | some t => exact ⟨t, rfl⟩
  have hnle := graph_n_le_entities elements
  have hloadN : load_graph r (netlist_as_graph elements).entities
      (netlist_as_graph elements).n (netlist_as_graph elements).adj none =
      some ⟨(netlist_as_graph elements).entities.length + r.component_types.length,
        setOnes
          (setOnes (setRowOneHots2 zero2 types)
            ((List.range' types.length r.component_types.length).map
              (fun i => (i, action_index r))))
          ((List.range' types.length r.component_types.length).zip
            (List.range r.component_types.length)),
        fun i j => if i < (netlist_as_graph elements).n ∧
          j < (netlist_as_graph elements).n
          then (netlist_as_graph elements).adj i j else 0⟩ := by
    unfold load_graph
    rw [hts]
  have hloadO : load_graph r (netlist_as_graph elements).entities
      (netlist_as_graph elements).n (netlist_as_graph elements).adj (some oi) =
      some ⟨(netlist_as_graph elements).entities.length +
          r.component_types.length - 1,
        setOnes
          (setOnes (setRowOneHots2 zero2 types)
            ((oi :: List.range' types.length (r.component_types.length - 1)).map
              (fun i => (i, action_index r))))
          ((oi :: List.range' types.length (r.component_types.length - 1)).zip
            (omT :: ((List.range r.component_types.length).filter
              (fun idx => idx ≠ omT)))),
        fun i j => if i < (netlist_as_graph elements).n ∧
          j < (netlist_as_graph elements).n
          then (netlist_as_graph elements).adj i j else 0⟩ := by
    unfold load_graph
    rw [hts]
    simp only
    rw [if_neg (by omega), hget]
  refine ⟨_, _, hloadN, hloadO, rfl, rfl, fun i j => rfl, fun i j => rfl,
    ?_, ?_, ?_, ?_⟩
  · intro k c hk
    have hkn : ¬ k < (netlist_as_graph elements).n := by omega
    refine ⟨?_, ?_, ?_, ?_⟩ <;>
      · show (if _ then _ else 0) = 0
        split_ifs <;> first | rfl | omega
  · intro k hk hktot
    have hktot' : k < (netlist_as_graph elements).entities.length +
        r.component_types.length := hktot
    show setOnes _ _ k (action_index r) = 1
    refine setOnes_preserve_one ?_
    have hkmem : (k, action_index r) ∈
        (List.range' types.length r.component_types.length).map
          (fun i => (i, action_index r)) :=
      List.mem_map.mpr ⟨k, List.mem_range'_1.mpr (by omega), rfl⟩
    exact setOnes_eq_one_of_mem (p := (k, action_index r)) hkmem
  · intro k hk hktot
    have hktot' : k < (netlist_as_graph elements).entities.length +
        r.component_types.length - 1 := hktot
    show setOnes _ _ k (action_index r) = 1
    refine setOnes_preserve_one ?_
    have hkmem : (k, action_index r) ∈
        (oi :: List.range' types.length (r.component_types.length - 1)).map
          (fun i => (i, action_index r)) :=
      List.mem_map.mpr ⟨k,
        List.mem_cons_of_mem oi (List.mem_range'_1.mpr (by omega)), rfl⟩
    exact setOnes_eq_one_of_mem (p := (k, action_index r)) hkmem
  · show setOnes _ _ oi (action_index r) = 1
    refine setOnes_preserve_one ?_
    have hkmem : (oi, action_index r) ∈
        (oi :: List.range' types.length (r.component_types.length - 1)).map
          (fun i => (i, action_index r)) :=
      List.mem_map.mpr ⟨oi, List.mem_cons_self oi _, rfl⟩
    exact setOnes_eq_one_of_mem (p := (oi, action_index r)) hkmem

/-- C5's amended theorem applied at the one-resistor graph with
`omitted_idx = 0`: 20 slots without omission, 19 with, the appended slot 2
carries the is-action bit with a zero adjacency row, and the reused slot 0
carries the is-action bit. -/
theorem C5_prototype_load_graph_witness :
    ((load_graph regBase demoG.entities demoG.n demoG.adj none).map
      (fun lg => lg.total_components)) = some 20 ∧
    ((load_graph regBase demoG.entities demoG.n demoG.adj (some 0)).map
      (fun lg => (lg.total_components, lg.x 2 18, lg.a 2 0, lg.x 0 18))) =
      some (19, 1, 0, 1) := by
  obtain ⟨lgN, lgO, hN, hO, htotN, htotO, _, _, hzero, hbitN, hbitO, hreuse⟩ :=
    C5_prototype_load_graph regBase demoElems [1, 6] 0 (by decide) (by decide)
  have hlen2 : (netlist_as_graph demoElems).entities.length = 2 := by decide
  have hT18 : regBase.component_types.length = 18 := by decide
  constructor
  · rw [show demoG = netlist_as_graph demoElems from rfl, hN, Option.map_some']
    refine congrArg some ?_
    rw [htotN, hlen2, hT18]
  · rw [show demoG = netlist_as_graph demoElems from rfl, hO, Option.map_some']
    refine congrArg some ?_
    have h1 : lgO.x 2 18 = 1 := by
      have := hbitO 2 (by omega) (by rw [htotO]; omega)
      rwa [show action_index regBase = 18 from rfl] at this
    have h2 : lgO.a 2 0 = 0 := (hzero 2 0 (by omega)).2.2.1
    have h3 : lgO.x 0 18 = 1 := by
      rwa [show action_index regBase = 18 from rfl] at hreuse
    rw [h1, h2, h3, htotO, hlen2, hT18]

theorem idxOfTag_none_of_not_mem {l : List TypeTag} {t : TypeTag} (h : t ∉ l) :
    idxOfTag l t = none := by
  induction l with
  | nil => rfl
  | cons y ys ih =>
    have hy : y ≠ t := fun hh => h (hh ▸ List.mem_cons_self y ys)
    have ht : t ∉ ys := fun hh => h (List.mem_cons_of_mem y hh)
    rw [idxOfTag, if_neg hy, ih ht]
    rfl

/-- Whatever the side file contains, the enumeration is the built-in prefix
followed by string labels only. -/
theorem loadRegistry_types_shape (lines : List (List Char)) :
    ∃ extra, (loadRegistry lines).component_types = base_component_types ++ extra ∧
      ∀ tag ∈ extra, ∃ s, tag = TypeTag.label s := by
  suffices h : ∀ (ls : List (List Char)) (r : Registry),
      (∃ extra, r.component_types = base_component_types ++ extra ∧
        ∀ tag ∈ extra, ∃ s, tag = TypeTag.label s) →
      ∃ extra, (ls.foldl sideFileStep r).component_types =
        base_component_types ++ extra ∧
        ∀ tag ∈ extra, ∃ s, tag = TypeTag.label s by
    exact h lines _ ⟨[], (List.append_nil _).symm, by simp⟩
  intro ls
  induction ls with
  | nil => intro r h; exact h
  | cons line rest ih =>
    intro r h
    refine ih (sideFileStep r line) ?_
    obtain ⟨extra, hext, hlab⟩ := h
    unfold sideFileStep
    cases hsp : splitOnSpace line with
    | nil => exact ⟨extra, hext, hlab⟩
    | cons a t =>
      cases t with
      | nil => exact ⟨extra, hext, hlab⟩
      | cons b t2 =>
        cases t2 with
        | nil =>
          show ∃ extra,
            (if TypeTag.label (stripChars b) ∈ r.component_types
              then r.component_types
              else r.component_types ++ [TypeTag.label (stripChars b)]) =
              base_component_types ++ extra ∧
            ∀ tag ∈ extra, ∃ s, tag = TypeTag.label s
          split_ifs with hmem
          · exact ⟨extra, hext, hlab⟩
          · refine ⟨extra ++ [TypeTag.label (stripChars b)], ?_, ?_⟩
            · rw [hext, List.append_assoc]
            · intro tag htag
              rcases List.mem_append.mp htag with h1 | h1
              · exact hlab tag h1
              · exact ⟨stripChars b, List.mem_singleton.mp h1⟩
        | cons c t3 => exact ⟨extra, hext, hlab⟩

/-- C6: the claim is the intent and the code a slip — an element whose
PySpice class is not registered in `component_types` (here
`CurrentControlledCurrentSource`, the standard SPICE `F` device) makes
`get_component_type_index` raise an uncaught `ValueError` from
`component_types.index` (modelled as `none`), whatever the side file
contains, instead of mapping it to an explicit "unknown"/error value. -/
theorem C6_unregistered_class_raises (lines : List (List Char)) :
    get_component_type_index (loadRegistry lines)
      (.comp ⟨0, .CurrentControlledCurrentSource, [], []⟩) = none := by
  obtain ⟨extra, hext, hlab⟩ := loadRegistry_types_shape lines
  show idxOfTag (loadRegistry lines).component_types
    (.cls .CurrentControlledCurrentSource) = none
  refine idxOfTag_none_of_not_mem ?_
  rw [hext]
  intro hmem
  rcases List.mem_append.mp hmem with h1 | h1
  · exact absurd h1 (by decide)
  · obtain ⟨s, hs⟩ := hlab _ h1
    cases hs

/-- C7: the claim is the intent and the code a slip — on invalid SPICE text
with a truthy `name`, `is_valid_netlist`'s handler itself raises
`NameError` because `sys` is imported only under `__main__`
(src/parse_netlist.py:158, 215); only with a falsy `name` does it return
`False`. -/
theorem C7_is_valid_netlist_raises (parse : List Char → Except Unit Unit)
    (textfile : List Char) (name : List Char)
    (hp : parse textfile = .error ()) (hname : name ≠ []) :
    is_valid_netlist parse textfile (some name) = .error .nameErrorSys ∧
    is_valid_netlist parse textfile none = .ok false := by
  unfold is_valid_netlist
  rw [hp]
  constructor
  · have ht : truthyName (some name) = true := by
      unfold truthyName
      simpa using hname
    rw [ht]
    rfl
  · rfl

/-- C7's theorem applied to a parser that rejects the empty string (as the
external SPICE parser does): with a file name the call raises, without one
it returns `False`. -/
theorem C7_is_valid_netlist_raises_witness :
    is_valid_netlist (fun _ => .error ()) [] (some "bad.cir".toList) =
      .error .nameErrorSys ∧
    is_valid_netlist (fun _ => .error ()) [] none = .ok false :=
  C7_is_valid_netlist_raises (fun _ => .error ()) [] "bad.cir".toList rfl
    (by decide)

theorem dictGet_dictInsert (d : List (List Char × List Char))
    (k v : List Char) : dictGet (dictInsert d k v) k = some v := by
  unfold dictInsert
  split_ifs with h
  · induction d with
    | nil => simp at h
    | cons p ps ih =>
      by_cases hk : p.1 = k
      · unfold dictGet
        rw [List.map_cons, if_pos hk, List.find?_cons_of_pos _ (by simp)]
        rfl
      · have hany : ps.any (fun p => p.1 = k) = true := by
          rcases List.any_eq_true.mp h with ⟨q, hq, hqk⟩
          rcases List.mem_cons.mp hq with rfl | hq1
          · exact absurd (by simpa using hqk) hk
          · exact List.any_eq_true.mpr ⟨q, hq1, hqk⟩
        unfold dictGet
        rw [List.map_cons, if_neg hk,
          List.find?_cons_of_neg _ (by simpa using hk)]
        exact ih hany
  · induction d with
    | nil =>
      unfold dictGet
      rw [List.nil_append, List.find?_cons_of_pos _ (by simp)]
      rfl
    | cons p ps ih =>
      have hk : ¬ p.1 = k := by
        intro hh
        exact h (List.any_eq_true.mpr ⟨p, List.mem_cons_self p ps, by simp [hh]⟩)
      have hany : ¬ ps.any (fun p => p.1 = k) = true := by
        intro hh
        rcases List.any_eq_true.mp hh with ⟨q, hq, hqk⟩
        exact h (List.any_eq_true.mpr ⟨q, List.mem_cons_of_mem p hq, hqk⟩)
      unfold dictGet
      rw [List.cons_append, List.find?_cons_of_neg _ (by simpa using hk)]
      exact ih hany

theorem idxOfTag_append_self {l : List TypeTag} {t : TypeTag} (h : t ∉ l) :
    idxOfTag (l ++ [t]) t = some l.length := by
  induction l with
  | nil =>
    show idxOfTag [t] t = some 0
    rw [idxOfTag, if_pos rfl]
  | cons y ys ih =>
    have hy : y ≠ t := fun hh => h (hh ▸ List.mem_cons_self y ys)
    have ht : t ∉ ys := fun hh => h (List.mem_cons_of_mem y hh)
    rw [List.cons_append, idxOfTag, if_neg hy, ih ht]
    rfl

/-- C8, counterexample: the line `"a\tb"` consists of exactly two
whitespace-separated tokens, yet the loader ignores it — the code splits on
the single space character (`line.split(' ')`), not on whitespace, so the
tab-separated mapping is neither stored in the dict nor appended to the
enumeration. -/
theorem C8_counterexample :
    (wsTokens "a\tb".toList).length = 2 ∧
    dictGet (loadRegistry ["a\tb".toList]).subcircuit_types "a".toList = none ∧
    TypeTag.label "b".toList ∉ (loadRegistry ["a\tb".toList]).component_types := by
  decide

/-- C8 (amended): every line that `split(' ')` cuts into exactly two
space-separated fields is treated as a `(subcircuit, label)` mapping — the
stripped label is stored under the subcircuit name, is in the enumeration,
and, when novel, is appended so its index equals the previous enumeration
length — and every line that does not split into exactly two fields is
ignored without error. -/
theorem C8_side_file_step (r : Registry) (line : List Char) :
    (∀ subcircuit label0, splitOnSpace line = [subcircuit, label0] →
      dictGet (sideFileStep r line).subcircuit_types subcircuit =
        some (stripChars label0) ∧
      TypeTag.label (stripChars label0) ∈ (sideFileStep r line).component_types ∧
      (TypeTag.label (stripChars label0) ∉ r.component_types →
        idxOfTag (sideFileStep r line).component_types
          (TypeTag.label (stripChars label0)) = some r.component_types.length)) ∧
    ((splitOnSpace line).length ≠ 2 → sideFileStep r line = r) := by
  constructor
  · intro subcircuit label0 hsp
    unfold sideFileStep
    rw [hsp]
    refine ⟨dictGet_dictInsert _ _ _, ?_, ?_⟩
    · show TypeTag.label (stripChars label0) ∈
        (if TypeTag.label (stripChars label0) ∈ r.component_types
          then r.component_types
          else r.component_types ++ [TypeTag.label (stripChars label0)])
      split_ifs with hmem
      · exact hmem
      · exact List.mem_append_right _ (List.mem_singleton.mpr rfl)
    · intro hnovel
      show idxOfTag (if TypeTag.label (stripChars label0) ∈ r.component_types
          then r.component_types
          else r.component_types ++ [TypeTag.label (stripChars label0)]) _ = _
      rw [if_neg hnovel]
      exact idxOfTag_append_self hnovel
  · intro hlen
    unfold sideFileStep
    cases hsp : splitOnSpace line with
    | nil => rfl
    | cons a t =>
      cases t with
      | nil => rfl
      | cons b t2 =>
        cases t2 with
        | nil => exact absurd (by rw [hsp]; rfl) hlen
        | cons c t3 => rfl

/-- C8's amended theorem applied to concrete lines: `"mysub amp"` maps
`mysub` to `amp` and appends `amp` at index 18; the three-field line
`"a b c"` is ignored. -/
theorem C8_side_file_step_witness :
    dictGet (sideFileStep regBase "mysub amp".toList).subcircuit_types
      "mysub".toList = some "amp".toList ∧
    idxOfTag (sideFileStep regBase "mysub amp".toList).component_types
      (TypeTag.label "amp".toList) = some 18 ∧
    sideFileStep regBase "a b c".toList = regBase := by
  have h1 := (C8_side_file_step regBase "mysub amp".toList).1
    "mysub".toList "amp".toList (by decide)
  have h2 := (C8_side_file_step regBase "a b c".toList).2 (by decide)
  have hstrip : stripChars "amp".toList = "amp".toList := by decide
  refine ⟨?_, ?_, h2⟩
  · have := h1.1
    rwa [hstrip] at this
  · have := h1.2.2 (by decide)
    rwa [hstrip, show regBase.component_types.length = 18 from by decide] at this

example : splitOnSpace "a b".toList = ["a".toList, "b".toList] := by decide

-- Concrete evaluation: the omission encoder leaves row i of X[i] all-zero.
example :
    ((encode_omitted_netlist (loadRegistry [])
        (netlist_as_graph [⟨0, .Resistor, [], []⟩]) zero3 zero3 zero2).map
      (fun t => rowSum (fun c => t.2.1 0 0 c) 18)) = some 0 := by decide
-- Concrete evaluation: the masked encoder makes row i of X[i] the unknown one-hot.
example :
    ((encode_masked_netlist (loadRegistry [])
        (netlist_as_graph [⟨0, .Resistor, [], []⟩]) zero3 zero3 zero3).map
      (fun t => (t.2.1 0 0 0, t.2.1 0 0 1, rowSum (fun c => t.2.1 0 0 c) 18))) =
      some (1, 0, 1) := by decide
-- Concrete evaluation: load_graph with omitted_idx keeps the reused slot edges.
example :
    ((load_graph (loadRegistry [])
        (netlist_as_graph [⟨0, .Resistor, [], [7]⟩]).entities
        (netlist_as_graph [⟨0, .Resistor, [], [7]⟩]).n
        (netlist_as_graph [⟨0, .Resistor, [], [7]⟩]).adj (some 0)).map
      (fun lg => (lg.total_components, lg.x 0 18, lg.a 0 1, lg.a 2 0, lg.x 2 18))) =
      some (19, 1, 1, 0, 1) := by decide
example : splitOnSpace "a\tb".toList = ["a\tb".toList] := by decide
example : splitOnSpace "".toList = [[]] := by decide
example : wsTokens "a\tb".toList = ["a".toList, "b".toList] := by decide
example :
    (loadRegistry ["mysub amp\n".toList]).component_types.length = 19 := by decide
example :
    get_component_type_index (loadRegistry [])
      (.comp ⟨0, .Resistor, [], []⟩) = some 1 := by decide
example :
    get_component_type_index (loadRegistry ["mysub amp\n".toList])
      (.comp ⟨0, .SubCircuitElement, "mysub".toList, []⟩) = some 18 := by decide
example :
    get_component_type_index (loadRegistry [])
      (.comp ⟨0, .CurrentControlledCurrentSource, [], []⟩) = none := by decide

-- Concrete evaluations of the graph builder.
example :
    (netlist_as_graph [⟨0, .Resistor, [], [7, 8]⟩]).entities =
      [.comp ⟨0, .Resistor, [], [7, 8]⟩, .node 7, .node 8] := by decide
example : (netlist_as_graph [⟨0, .Resistor, [], [7, 8]⟩]).n = 3 := by decide
example : (netlist_as_graph [⟨0, .Resistor, [], [7, 8]⟩]).adj 0 1 = 1 := by decide
example : (netlist_as_graph [⟨0, .Resistor, [], [7, 8]⟩]).adj 1 0 = 1 := by decide
example : (netlist_as_graph [⟨0, .Resistor, [], [7, 8]⟩]).adj 1 2 = 0 := by decide
example : (netlist_as_graph [⟨0, .Resistor, [], [7, 8]⟩]).adj 0 0 = 0 := by decide
example : (netlist_as_graph [⟨0, .Resistor, [], [7, 7]⟩]).adj 0 1 = 1 := by decide
example :
    (netlist_as_graph
      [⟨0, .Resistor, [], [1, 2]⟩, ⟨1, .VoltageSource, [], [2, 3]⟩]).adj 3 4 = 1 := by
  decide
example :
    (netlist_as_graph
      [⟨0, .Resistor, [], [1, 2]⟩, ⟨1, .VoltageSource, [], [2, 3]⟩]).adj 3 2 = 1 := by
  decide
example :
    (netlist_as_graph
      [⟨0, .Resistor, [], [1, 2]⟩, ⟨1, .VoltageSource, [], [2, 3]⟩]).adj 3 1 = 0 := by
  decide

end SpiceCompletion
